import Mathlib

/-!
Verification development for the pytest_commander / pytest_web_ui web client
core: the result-tree data model, the patch-merge algorithm, the selection
resolver, the URL address codec and the environment-state command controls.

Part 1 models the pytest_commander web client (web_client/src/App.tsx and
web_client/src/NavColumn.tsx): the BranchNode and LeafNode data model, the
getCurrSelection resolver, parseSelection and the render dispatch of the
TestRunner component.

JavaScript objects used as string-keyed maps are modelled as association
lists in insertion order; lookup returns the first matching key, which
coincides with JavaScript property lookup because keys are unique.
-/

/-- Association-list lookup: first entry with the given key, as JavaScript
property access on a string-keyed object. -/
def lookupA {α : Type} : List (String × α) → String → Option α
  | [], _ => none
  | (k', v) :: rest, k => if k' = k then some v else lookupA rest k

/-- LeafNode of the pytest_commander web client data model: a terminal test
case with nodeid, short_id, execution status and failure report text. -/
inductive LeafNode where
  | mk (nodeid : String) (short_id : String) (status : String) (report : String)

/-- BranchNode of the pytest_commander web client data model: an interior
node with nodeid, short_id, execution status, environment state and two
string-keyed child maps. -/
inductive BranchNode where
  | mk (nodeid : String) (short_id : String) (status : String)
       (env_state : String)
       (child_branches : List (String × BranchNode))
       (child_leaves : List (String × LeafNode))

def BranchNode.nodeid : BranchNode → String
  | .mk n _ _ _ _ _ => n

def BranchNode.short_id : BranchNode → String
  | .mk _ s _ _ _ _ => s

def BranchNode.status : BranchNode → String
  | .mk _ _ s _ _ _ => s

def BranchNode.env_state : BranchNode → String
  | .mk _ _ _ e _ _ => e

def BranchNode.child_branches : BranchNode → List (String × BranchNode)
  | .mk _ _ _ _ cb _ => cb

def BranchNode.child_leaves : BranchNode → List (String × LeafNode)
  | .mk _ _ _ _ _ cl => cl

/-- Result of getCurrSelection: either the pair of child maps of the
resolved branch, or the SelectionNotFound exception carrying its message
and the selection that failed to resolve. -/
inductive SelResult where
  | ok (childBranches : List (String × BranchNode))
       (childLeaves : List (String × LeafNode))
  | notFound (message : String) (selection : List String)

/-- Accumulator step of the reduce in getCurrSelection: optional-chained
lookup of one segment in child_branches. -/
def childLookup : Option BranchNode → String → Option BranchNode
  | none, _ => none
  | some n, k => lookupA n.child_branches k

/-- Model of getCurrSelection from pytest_commander web_client App.tsx.
With no tree loaded it returns two empty maps; with an empty selection it
returns a singleton branch map holding the root under its own short_id;
otherwise it reduces over all segments after the first with child_branches
lookup, and either returns the resolved branch's child maps or throws
SelectionNotFound. -/
def getCurrSelection (selection : List String) (resultTree : Option BranchNode) :
    SelResult :=
  match resultTree with
  | none => .ok [] []
  | some t =>
    match selection with
    | [] => .ok [(t.short_id, t)] []
    | _ :: restSel =>
      match restSel.foldl childLookup (some t) with
      | some b => .ok b.child_branches b.child_leaves
      | none => .notFound "Not found" selection

/-- Specification-style reading of the resolver walk: starting at the given
node, look each segment up in child_branches in order; fail as soon as one
is absent. Used to characterise when getCurrSelection fails. -/
def descend (t : BranchNode) : List String → Option BranchNode
  | [] => some t
  | k :: ks =>
    match lookupA t.child_branches k with
    | none => none
    | some c => descend c ks

/-- Component state of the pytest_commander TestRunner that the render
method reads: the held snapshot, the loading flag and the fatal load error
message. The socket handle does not affect rendering. -/
structure TRState where
  resultTree : Option BranchNode
  loading : Bool
  errorMessage : Option String

/-- Views the TestRunner render method can produce: the loading message,
the fatal load-error message, the 404 not-found message (all three render
MessageDisplay, which keeps the navigation column and breadcrumbs shell),
or the full TestRunnerDisplay. -/
inductive RenderView where
  | loadingView (selection : List String)
  | errorView (message : String) (selection : List String)
  | notFoundView (selection : List String)
  | displayView (childBranches : List (String × BranchNode))
                (childLeaves : List (String × LeafNode))
                (selection : List String)

/-- Model of TestRunner.render from pytest_commander web_client App.tsx,
parameterised by the already-parsed selection: loading and errorMessage
short-circuit; otherwise getCurrSelection runs inside try, and a
SelectionNotFound is caught and rendered as the 404 message view. -/
def renderTestRunner (s : TRState) (selection : List String) : RenderView :=
  if s.loading then .loadingView selection
  else
    match s.errorMessage with
    | some m => .errorView m selection
    | none =>
      match getCurrSelection selection s.resultTree with
      | .ok cb cl => .displayView cb cl selection
      | .notFound _ sel => .notFoundView sel

/-- Sample moment of comparison between selection results: equal child
maps in the ok case, equal exception messages in the not-found case (the
SelectionNotFound additionally records the respective input selection). -/
def sameSelOutcome : SelResult → SelResult → Prop
  | .ok b1 l1, .ok b2 l2 => b1 = b2 ∧ l1 = l2
  | .notFound m1 _, .notFound m2 _ => m1 = m2
  | _, _ => False

/-- Scenario tree of spec section 8: a root whose only child branch is
suite_a, which holds the single leaf test_one with status pending. -/
def exLeafTestOne : LeafNode := .mk "suite_a.py::test_one" "test_one" "pending" ""

/-- Branch suite_a of the scenario tree. -/
def exSuiteA : BranchNode :=
  .mk "suite_a.py" "suite_a" "pending" "inactive" [] [("test_one", exLeafTestOne)]

/-- Root of the scenario tree; its short_id is root and its only child
branch is suite_a. -/
def exRoot : BranchNode :=
  .mk "" "root" "pending" "inactive" [("suite_a", exSuiteA)] []

/-- Model of TestRunner.handleUpdate from pytest_commander web_client
App.tsx: the tree received over the websocket replaces the held snapshot
wholesale, unconditionally, and nothing else in the state changes. -/
def handleUpdate (s : TRState) (tree : BranchNode) : TRState :=
  { s with resultTree := some tree }

/-- Rendered environment control of a branch entry, as produced by
BranchEntryButtons and EnvironmentIcon in pytest_commander NavColumn.tsx:
either no environment icon at all, a clickable toggle whose click dispatches
handleEnvToggle with the recorded start flag, a toggle rendered without any
click handler, or a thrown render error for an unrecognised value. -/
inductive EnvControl where
  | absent
  | toggle (start : Bool)
  | disabledToggle
  | renderError (message : String)

/-- Model of the EnvironmentIcon component switch on envStatus. -/
def environmentIcon (envStatus : String) : EnvControl :=
  if envStatus = "stopped" then .toggle true
  else if envStatus = "started" then .toggle false
  else if envStatus = "stopping" then .disabledToggle
  else .renderError ("unexpected environment status " ++ envStatus)

/-- Model of BranchEntryButtons: a node whose environment state is inactive
renders no EnvironmentIcon at all; any other value is handed to
EnvironmentIcon. -/
def branchEntryEnvControl (envState : String) : EnvControl :=
  if envState = "inactive" then .absent
  else environmentIcon envState

/-- Dispatch a control can emit when clicked: some start-flag for a
clickable toggle (true emits the start env command, false the stop env
command), none otherwise (no click handler exists, so no channel emission
is possible). -/
def dispatchOfControl : EnvControl → Option Bool
  | .toggle b => some b
  | _ => none

/-- Modelled from the spec: the legal environment state-machine transitions
of spec section 4.3 (stopped to started, started to stopping, stopping to
stopped). The client code contains no such definition; this one follows the
spec's words and exists only to state which transitions are illegal. -/
def specLegalEnvTransition (fromState toState : String) : Bool :=
  (fromState = "stopped" && toState = "started") ||
  (fromState = "started" && toState = "stopping") ||
  (fromState = "stopping" && toState = "stopped")

/-- Variant of the scenario tree in which the patch asserts that suite_a
now has environment state started. -/
def exSuiteAStarted : BranchNode :=
  .mk "suite_a.py" "suite_a" "pending" "started" [] [("test_one", exLeafTestOne)]

/-- Patch tree corresponding to exSuiteAStarted. -/
def exRootStarted : BranchNode :=
  .mk "" "root" "pending" "inactive" [("suite_a", exSuiteAStarted)] []

/-!
Part 2 models parseSelection from pytest_commander web_client App.tsx
together with the JavaScript string primitives it relies on, and the link
construction of NavColumn BranchEntry. Strings are modelled as lists of
Unicode scalar values. encodeURIComponent percent-encodes the UTF-8 bytes
of every character outside its unreserved set using uppercase hexadecimal;
decodeURIComponent percent-unescapes byte sequences and reassembles UTF-8,
throwing URIError on malformed escapes or invalid UTF-8, modelled as none.
-/

/-- Unreserved characters that encodeURIComponent passes through
unchanged: ASCII letters, digits, and the marks of its unreserved set. -/
def unreservedChar (c : Char) : Bool :=
  ('A' ≤ c && c ≤ 'Z') || ('a' ≤ c && c ≤ 'z') || ('0' ≤ c && c ≤ '9') ||
  c == '-' || c == '_' || c == '.' || c == '!' || c == '~' || c == '*' ||
  c == '\'' || c == '(' || c == ')'

/-- Uppercase hexadecimal digit of a value below 16, as encodeURIComponent
emits. -/
def hexDigit (n : Nat) : Char :=
  if n < 10 then Char.ofNat (48 + n) else Char.ofNat (55 + n)

/-- Percent escape of one byte. -/
def percentByte (b : Nat) : List Char :=
  ['%', hexDigit (b / 16), hexDigit (b % 16)]

/-- UTF-8 encoding of a Unicode scalar value as a byte list. -/
def utf8Bytes (n : Nat) : List Nat :=
  if n < 0x80 then [n]
  else if n < 0x800 then [0xC0 + n / 64, 0x80 + n % 64]
  else if n < 0x10000 then
    [0xE0 + n / 4096, 0x80 + n / 64 % 64, 0x80 + n % 64]
  else
    [0xF0 + n / 262144, 0x80 + n / 4096 % 64, 0x80 + n / 64 % 64, 0x80 + n % 64]

/-- Model of JavaScript encodeURIComponent on one character: unreserved
characters pass through, every other character becomes the percent escapes
of its UTF-8 bytes. -/
def encodeChar (c : Char) : List Char :=
  if unreservedChar c then [c]
  else (utf8Bytes c.toNat).flatMap percentByte

/-- Model of JavaScript encodeURIComponent. -/
def encodeURIComponent (s : List Char) : List Char :=
  s.flatMap encodeChar

/-- Numeric value of a hexadecimal digit of either case, as percent-escape
decoding accepts. -/
def hexVal (c : Char) : Option Nat :=
  if '0' ≤ c && c ≤ '9' then some (c.toNat - 48)
  else if 'A' ≤ c && c ≤ 'F' then some (c.toNat - 55)
  else if 'a' ≤ c && c ≤ 'f' then some (c.toNat - 87)
  else none

/-- Token of the percent-unescape phase of decodeURIComponent: a literal
character or one decoded byte. -/
inductive PTok where
  | raw (c : Char)
  | byte (b : Nat)

/-- Percent-unescape phase of decodeURIComponent: each well-formed percent
escape becomes a byte token, every other character stays literal; a percent
sign not followed by two hexadecimal digits is a URIError (none). -/
def percentToks : List Char → Option (List PTok)
  | [] => some []
  | c :: rest =>
    if c = '%' then
      match rest with
      | h :: l :: rest2 =>
        match hexVal h, hexVal l with
        | some a, some b => (percentToks rest2).map (PTok.byte (16 * a + b) :: ·)
        | _, _ => none
      | _ => none
    else (percentToks rest).map (PTok.raw c :: ·)

/-- Continuation-byte test of UTF-8 reassembly. -/
def contByte (b : Nat) : Bool := 0x80 ≤ b && b < 0xC0

/-- One-continuation reader of a two-byte UTF-8 sequence: consumes the
continuation byte token, recombines the scalar value and hands the rest to
the decoding loop given as next. Two-byte leads below 0xC2 were already
rejected as overlong, so no further range check is needed. -/
def utf8Cont1 (next : List PTok → Option (List Char)) (b : Nat) :
    List PTok → Option (List Char)
  | .byte b2 :: rest2 =>
    if contByte b2 then
      (next rest2).map (Char.ofNat ((b - 0xC0) * 64 + (b2 - 0x80)) :: ·)
    else none
  | _ => none

/-- Second-continuation reader of a three-byte UTF-8 sequence: recombines
the scalar value, which must be at least 0x800 (not overlong) and not a
surrogate. -/
def utf8Cont2b (next : List PTok → Option (List Char)) (b b2 : Nat) :
    List PTok → Option (List Char)
  | .byte b3 :: rest3 =>
    if contByte b3 then
      let n := (b - 0xE0) * 4096 + (b2 - 0x80) * 64 + (b3 - 0x80)
      if 0x800 ≤ n && (n < 0xD800 || 0xDFFF < n) then
        (next rest3).map (Char.ofNat n :: ·)
      else none
    else none
  | _ => none

/-- First-continuation reader of a three-byte UTF-8 sequence. -/
def utf8Cont2 (next : List PTok → Option (List Char)) (b : Nat) :
    List PTok → Option (List Char)
  | .byte b2 :: rest2 => if contByte b2 then utf8Cont2b next b b2 rest2 else none
  | _ => none

/-- Third-continuation reader of a four-byte UTF-8 sequence: recombines the
scalar value, which must be at least 0x10000 (not overlong) and at most
0x10FFFF. -/
def utf8Cont3c (next : List PTok → Option (List Char)) (b b2 b3 : Nat) :
    List PTok → Option (List Char)
  | .byte b4 :: rest4 =>
    if contByte b4 then
      let n := (b - 0xF0) * 262144 + (b2 - 0x80) * 4096 +
        (b3 - 0x80) * 64 + (b4 - 0x80)
      if 0x10000 ≤ n && n < 0x110000 then
        (next rest4).map (Char.ofNat n :: ·)
      else none
    else none
  | _ => none

/-- Second-continuation reader of a four-byte UTF-8 sequence. -/
def utf8Cont3b (next : List PTok → Option (List Char)) (b b2 : Nat) :
    List PTok → Option (List Char)
  | .byte b3 :: rest3 => if contByte b3 then utf8Cont3c next b b2 b3 rest3 else none
  | _ => none

/-- First-continuation reader of a four-byte UTF-8 sequence. -/
def utf8Cont3 (next : List PTok → Option (List Char)) (b : Nat) :
    List PTok → Option (List Char)
  | .byte b2 :: rest2 => if contByte b2 then utf8Cont3b next b b2 rest2 else none
  | _ => none

/-- UTF-8 reassembly loop over the token list, structured on a fuel bound
on the number of iterations: literal characters pass through; a byte below
128 stands alone; a longer sequence needs its exact number of
continuation-byte tokens immediately following, read by the helpers above,
and must denote a scalar value in range, neither overlong nor a surrogate;
every violation is a URIError (none). Each iteration consumes at least one
token and one unit of fuel, so fuel equal to the list length always
suffices and the exhaustion branch is unreachable from utf8Toks. -/
def utf8ToksF : Nat → List PTok → Option (List Char)
  | _, [] => some []
  | 0, _ :: _ => none
  | f + 1, .raw c :: rest => (utf8ToksF f rest).map (c :: ·)
  | f + 1, .byte b :: rest =>
    if b < 0x80 then (utf8ToksF f rest).map (Char.ofNat b :: ·)
    else if b < 0xC2 then none
    else if b < 0xE0 then utf8Cont1 (utf8ToksF f) b rest
    else if b < 0xF0 then utf8Cont2 (utf8ToksF f) b rest
    else if b < 0xF5 then utf8Cont3 (utf8ToksF f) b rest
    else none

/-- UTF-8 reassembly phase of decodeURIComponent: the loop run with enough
fuel for the whole token list. -/
def utf8Toks (ts : List PTok) : Option (List Char) := utf8ToksF ts.length ts

/-- Model of JavaScript decodeURIComponent: percent-unescape then UTF-8
reassembly; a URIError at either phase is none. -/
def decodeURIComponent (l : List Char) : Option (List Char) :=
  match percentToks l with
  | some ts => utf8Toks ts
  | none => none

/-- Option-valued map over a list, as the map of decodeURIComponent over
the path elements inside parseSelection: any URIError propagates out. -/
def mapOption {α β : Type} (f : α → Option β) : List α → Option (List β)
  | [] => some []
  | x :: xs =>
    match f x, mapOption f xs with
    | some y, some ys => some (y :: ys)
    | _, _ => none

/-- Model of the split on slash inside parseSelection, with the JavaScript
String.prototype.split semantics: empty fields around separators are
kept. -/
def splitSlash : List Char → List (List Char)
  | [] => [[]]
  | c :: rest =>
    if c = '/' then [] :: splitSlash rest
    else
      match splitSlash rest with
      | s :: ss => (c :: s) :: ss
      | [] => [[c]]

/-- Model of the regex replace inside parseSelection that strips every
leading and trailing slash. -/
def trimSlashes (l : List Char) : List Char :=
  ((l.dropWhile fun c => c = '/').reverse.dropWhile fun c => c = '/').reverse

/-- Model of parseSelection from pytest_commander web_client App.tsx: a
null or empty url yields the empty selection; the path is stripped of
leading and trailing slashes, and if nothing remains the selection is also
empty; otherwise the trimmed path is split on slashes and every element is
percent-decoded, any URIError propagating as none. -/
def parseSelection (url : Option (List Char)) : Option (List (List Char)) :=
  match url with
  | none => some []
  | some u =>
    if u = [] then some []
    else
      let trimmed := trimSlashes u
      if trimmed = [] then some []
      else mapOption decodeURIComponent (splitSlash trimmed)

/-- Join with slash separators, as the Array.prototype.join of the link
construction in NavColumn BranchEntry. -/
def joinSlash : List (List Char) → List Char
  | [] => []
  | [s] => s
  | s :: t :: rest => s ++ '/' :: joinSlash (t :: rest)

/-- Token image of one character under encoding: one literal token for an
unreserved character, otherwise its UTF-8 bytes as byte tokens. -/
def encToks (c : Char) : List PTok :=
  if unreservedChar c then [PTok.raw c]
  else (utf8Bytes c.toNat).map PTok.byte

/-!
Part 3 models updateResultTree of pytest_web_ui src/App.tsx, which builds
the new snapshot as a shallow copy of the current root followed by a
lodash merge of the patch. Because lodash merge mutates its destination in
place, recursing into nested objects that the shallow copy shares with the
previous snapshot, the model makes the JavaScript heap explicit: a store of
objects addressed by allocation order, values being strings or references.
The patch is a fresh JSON tree, never aliased with the snapshot. The lodash
behaviour modelled, for the string-and-object values of the result-tree
data model: for each source key in order, a primitive source value is
assigned to the destination field; an object source value is merged
recursively, in place, into the existing destination object when the
destination field currently holds one (the reference is kept, so the merged
child object remains shared), and otherwise the source subtree is deep
copied into freshly allocated objects and the destination field is set to
reference the copy.
-/

/-- JavaScript value of the result-tree data model: a string or a reference
to a heap object. -/
inductive JVal where
  | vstr (s : String)
  | vref (a : Nat)
deriving DecidableEq

/-- JavaScript object: its own enumerable fields in insertion order.
Property assignment updates an existing field in place or appends a new
one. -/
def objSet : List (String × JVal) → String → JVal → List (String × JVal)
  | [], k, v => [(k, v)]
  | (k', v') :: rest, k, v =>
    if k' = k then (k, v) :: rest else (k', v') :: objSet rest k v

/-- JavaScript heap: the object at each address; an address is the index at
which the object was allocated, and allocation appends at the end. -/
def getObj (st : List (List (String × JVal))) (a : Nat) : List (String × JVal) :=
  st.getD a []

/-- Heap write of one field of the object at an address. -/
def setFieldAt (st : List (List (String × JVal))) (a : Nat) (k : String)
    (v : JVal) : List (List (String × JVal)) :=
  st.set a (objSet (getObj st a) k v)

/-- JSON value arriving in a patch over the websocket: a string or a nested
object, a fresh tree never aliased with the held snapshot. -/
inductive PVal where
  | pstr (s : String)
  | pobj (fields : List (String × PVal))

/-- Model of the lodash merge underlying updateResultTree, merging the
fields of a patch object into the destination object in the heap: a string
patch value is assigned to the field; an object patch value is merged
recursively in place when the destination field holds an object reference
(which lodash then reassigns unchanged, so the model keeps the field), and
otherwise (new key, or a primitive under the key) the patch subtree is deep
copied into a freshly allocated empty object, exactly as lodash clones and
then merges into the clone, and the field is set to the fresh reference. -/
def mergeFields : List (List (String × JVal)) → Nat → List (String × PVal) →
    List (List (String × JVal))
  | st, _, [] => st
  | st, dest, (k, .pstr s) :: rest =>
    mergeFields (setFieldAt st dest k (.vstr s)) dest rest
  | st, dest, (k, .pobj fs) :: rest =>
    match lookupA (getObj st dest) k with
    | some (.vref a) => mergeFields (mergeFields st a fs) dest rest
    | _ =>
      mergeFields
        (setFieldAt (mergeFields (st ++ [[]]) st.length fs) dest k
          (.vref st.length))
        dest rest

/-- Model of updateResultTree from pytest_web_ui src/App.tsx: the spread of
currRoot allocates a new root object holding the same own fields (so every
nested object stays shared with the previous snapshot), and lodash merge
folds the patch into it. Returns the resulting heap and the address of the
new root. -/
def updateResultTree (st : List (List (String × JVal))) (rootAddr : Nat)
    (patch : List (String × PVal)) : List (List (String × JVal)) × Nat :=
  (mergeFields (st ++ [getObj st rootAddr]) st.length patch, st.length)

/-- Test for a field being present on the object at an address. -/
def hasKeyB (st : List (List (String × JVal))) (a : Nat) (k : String) : Bool :=
  (lookupA (getObj st a) k).isSome

/-- Edge of the heap object graph: the object at the first address has a
field holding a reference to the second address. -/
def edgeAt (st : List (List (String × JVal))) (x : Nat) (k : String) (y : Nat) :
    Prop :=
  lookupA (getObj st x) k = some (.vref y)

/-- Reachability along reference fields, each address reaching itself. -/
inductive Reaches (st : List (List (String × JVal))) : Nat → Nat → Prop
  | refl (a : Nat) : Reaches st a a
  | head {a c b : Nat} (k : String) :
      edgeAt st a k c → Reaches st c b → Reaches st a b

/-- Forward-reference check of one value: a reference must point strictly
above the holding object's address and into the store. -/
def valFwd : JVal → Nat → Nat → Bool
  | .vstr _, _, _ => true
  | .vref j, i, len => decide (i < j) && decide (j < len)

/-- Well-formed store: every reference points from a lower address to a
strictly higher address inside the store, so parents precede children.
Every finite snapshot tree can be laid out in this allocation order, and
the stores denoting snapshot trees are exactly of this shape. -/
def wfStore (st : List (List (String × JVal))) : Prop :=
  ∀ x < st.length, ∀ p ∈ getObj st x, valFwd p.2 x st.length = true

/-- Reference test of a value. -/
def isRef : JVal → Bool
  | .vref _ => true
  | .vstr _ => false

/-- Unique-reference store: no two distinct fields anywhere hold the same
reference, so every object has at most one incoming edge and the heap is a
forest, as a snapshot tree is. -/
def uniqueRefs (st : List (List (String × JVal))) : Prop :=
  ∀ x1 < st.length, ∀ x2 < st.length,
    ∀ p1 ∈ getObj st x1, ∀ p2 ∈ getObj st x2,
      isRef p1.2 = true → p1.2 = p2.2 → x1 = x2 ∧ p1.1 = p2.1

instance (st : List (List (String × JVal))) (x : Nat) (k : String) (y : Nat) :
    Decidable (edgeAt st x k y) := by
  unfold edgeAt
  exact inferInstance


instance (st : List (List (String × JVal))) : Decidable (wfStore st) := by
  unfold wfStore
  exact inferInstance

instance (st : List (List (String × JVal))) : Decidable (uniqueRefs st) := by
  unfold uniqueRefs
  exact inferInstance

/-- Boundedness check of one value: a reference must point into the
store. -/
def valBounded : JVal → Nat → Bool
  | .vstr _, _ => true
  | .vref j, len => decide (j < len)

/-- Store that is well formed except at one distinguished unreferenced
address: every other object has forward references into the store, the
object at the distinguished address has bounded references, and no field
anywhere references the distinguished address. The working store of
updateResultTree is of this shape: the freshly appended root copy holds
references back into the tree but is itself referenced by nobody. -/
def wfX (st : List (List (String × JVal))) (n : Nat) : Prop :=
  (∀ x < st.length, x ≠ n → ∀ p ∈ getObj st x, valFwd p.2 x st.length = true) ∧
  (∀ p ∈ getObj st n, valBounded p.2 st.length = true) ∧
  (∀ x k, ¬ edgeAt st x k n)


/-- Patch encoding of the fields of one leaf object: every field value is a
string. -/
def encLeafFields (lp : List (String × String)) : List (String × PVal) :=
  lp.map fun p => (p.1, .pstr p.2)

/-- Patch encoding of a child_leaves update: a map from leaf keys to flat
leaf objects. -/
def encLeafPatch (pm : List (String × List (String × String))) :
    List (String × PVal) :=
  pm.map fun p => (p.1, .pobj (encLeafFields p.2))

/-- Concrete snapshot heap for the merge counterexamples: the root at
address 0 references its child_branches map at address 1, which holds the
single branch suite_a at address 2. -/
def exStore : List (List (String × JVal)) :=
  [[("nodeid", .vstr ""), ("status", .vstr "passed"), ("child_branches", .vref 1)],
   [("suite_a", .vref 2)],
   [("nodeid", .vstr "suite_a.py"), ("status", .vstr "pending")]]

/-- Concrete patch asserting that suite_a is now running: shaped as the
partial-tree overlay, touching only the status of the nested branch. -/
def exPatch : List (String × PVal) :=
  [("child_branches", .pobj [("suite_a", .pobj [("status", .pstr "running")])])]

/-- Concrete snapshot heap for the leaf-merge counterexample: the root at
address 0 references its child_leaves map at address 1, which holds the
single leaf test_one at address 2, which failed earlier and carries a
report. -/
def exStoreLeaf : List (List (String × JVal)) :=
  [[("nodeid", .vstr ""), ("child_leaves", .vref 1)],
   [("test_one", .vref 2)],
   [("nodeid", .vstr "test_one"), ("status", .vstr "failed"),
    ("report", .vstr "AssertionError")]]

/-- Concrete patch reporting that test_one now passed; the patch leaf
carries only the new status and no report field. -/
def exPatchLeaf : List (String × PVal) :=
  [("child_leaves", .pobj [("test_one", .pobj [("status", .pstr "passed")])])]

/-- Concrete snapshot heap with two sibling branches: the root at address 0
references its child_branches map at address 1, which holds suite_a at
address 2 and suite_b at address 3. -/
def exStoreC1 : List (List (String × JVal)) :=
  [[("nodeid", .vstr ""), ("child_branches", .vref 1)],
   [("suite_a", .vref 2), ("suite_b", .vref 3)],
   [("nodeid", .vstr "suite_a.py"), ("status", .vstr "pending")],
   [("nodeid", .vstr "suite_b.py"), ("status", .vstr "passed")]]

theorem foldl_childLookup_none (ks : List String) :
    ks.foldl childLookup none = none := by
  induction ks with
  | nil => rfl
  | cons k ks ih => simpa [childLookup] using ih

theorem foldl_childLookup_eq_descend (ks : List String) (t : BranchNode) :
    ks.foldl childLookup (some t) = descend t ks := by
  induction ks generalizing t with
  | nil => rfl
  | cons k ks ih =>
    rw [List.foldl_cons]
    cases h : lookupA t.child_branches k with
    | none =>
      rw [show childLookup (some t) k = none from by simp [childLookup, h]]
      rw [foldl_childLookup_none ks]
      simp [descend, h]
    | some c =>
      rw [show childLookup (some t) k = some c from by simp [childLookup, h]]
      rw [ih c]
      simp [descend, h]

/-- C5 counterexample: on the scenario tree whose root has the single child
branch suite_a, resolving the empty address does not return the root's
direct children; it returns the root itself keyed by its own short_id. -/
theorem empty_address_not_root_children :
    getCurrSelection [] (some exRoot) ≠
      SelResult.ok exRoot.child_branches exRoot.child_leaves := by
  intro h
  simp only [getCurrSelection, exRoot, exSuiteA, BranchNode.short_id,
    BranchNode.child_branches, BranchNode.child_leaves, SelResult.ok.injEq,
    List.cons.injEq, Prod.mk.injEq] at h
  exact absurd h.1.1.1 (by decide)

/-- C5 amended: resolving the empty address against a loaded tree returns a
singleton branches map holding the root node itself under its own short_id
together with an empty leaves map, rather than the root's direct children. -/
theorem empty_address_returns_root_singleton (t : BranchNode) :
    getCurrSelection [] (some t) = SelResult.ok [(t.short_id, t)] [] := rfl

/-- C6 counterexample: a one-segment address whose segment is absent from
the root's child_branches still resolves successfully (to the root's
children) instead of yielding SelectionNotFound, because resolution never
looks the first segment up. -/
theorem absent_first_segment_still_resolves :
    getCurrSelection ["garbage"] (some exRoot) =
      SelResult.ok exRoot.child_branches exRoot.child_leaves ∧
    lookupA exRoot.child_branches "garbage" = none := by
  constructor
  · rfl
  · rfl

/-- C6 amended: for a loaded tree, resolution yields SelectionNotFound
exactly when the address is non-empty and the walk over the segments after
the first, looking each up in child_branches step by step, fails; the first
segment is never inspected. In exactly that case the TestRunner render
catches the exception and produces the 404 not-found view (which keeps the
navigation shell); every other selection renders the full display view. -/
theorem resolution_fails_iff_tail_walk_fails (t : BranchNode) (sel : List String) :
    (getCurrSelection sel (some t) = SelResult.notFound "Not found" sel ↔
      sel ≠ [] ∧ descend t (sel.drop 1) = none) ∧
    (renderTestRunner ⟨some t, false, none⟩ sel = RenderView.notFoundView sel ↔
      sel ≠ [] ∧ descend t (sel.drop 1) = none) := by
  cases sel with
  | nil =>
    constructor
    · constructor
      · intro h; cases h
      · rintro ⟨h, -⟩; exact absurd rfl h
    · constructor
      · intro h; cases h
      · rintro ⟨h, -⟩; exact absurd rfl h
  | cons a rest =>
    have hw := foldl_childLookup_eq_descend rest t
    constructor
    · constructor
      · intro h
        refine ⟨by simp, ?_⟩
        simp only [getCurrSelection, hw] at h
        cases hd : descend t rest with
        | none => simpa using hd
        | some b => rw [hd] at h; cases h
      · rintro ⟨-, hd⟩
        simp only [List.drop_succ_cons, List.drop_zero] at hd
        simp only [getCurrSelection, hw, hd]
    · constructor
      · intro h
        refine ⟨by simp, ?_⟩
        simp only [renderTestRunner, getCurrSelection, hw] at h
        cases hd : descend t rest with
        | none => simpa using hd
        | some b => rw [hd] at h; cases h
      · rintro ⟨-, hd⟩
        simp only [List.drop_succ_cons, List.drop_zero] at hd
        simp [renderTestRunner, getCurrSelection, hw, hd]

/-- C9: resolution of a non-empty address never inspects the first segment.
Two non-empty addresses with equal tails produce the same outcome: equal
child maps when resolution succeeds, and the same SelectionNotFound message
when it fails (the exception also records the respective input address).
In particular a single-segment address always resolves to the root's own
children, whatever the segment is. -/
theorem resolution_ignores_first_segment (t : BranchNode) (a b : String)
    (rest : List String) :
    sameSelOutcome (getCurrSelection (a :: rest) (some t))
      (getCurrSelection (b :: rest) (some t)) ∧
    getCurrSelection [a] (some t) = SelResult.ok t.child_branches t.child_leaves := by
  constructor
  · simp only [getCurrSelection]
    cases rest.foldl childLookup (some t) with
    | none => exact rfl
    | some n => exact ⟨rfl, rfl⟩
  · rfl

/-- C7 counterexample: the current snapshot holds suite_a with environment
state inactive, and an incoming tree asserts suite_a has environment state
started, a transition the state machine of spec section 4.3 forbids.
handleUpdate absorbs it silently: the snapshot is replaced by the patched
tree, no error of any kind is recorded or raised, and no updated-tree
production is prevented. -/
theorem illegal_env_patch_absorbed :
    (lookupA exRoot.child_branches "suite_a").map BranchNode.env_state =
      some "inactive" ∧
    (lookupA exRootStarted.child_branches "suite_a").map BranchNode.env_state =
      some "started" ∧
    specLegalEnvTransition "inactive" "started" = false ∧
    handleUpdate ⟨some exRoot, false, none⟩ exRootStarted =
      ⟨some exRootStarted, false, none⟩ := by
  refine ⟨rfl, rfl, rfl, rfl⟩

/-- C7 amended: an incoming patch asserting an illegal environment-state
transition is absorbed silently rather than raising any error: handleUpdate
unconditionally replaces the held snapshot with the received tree and
leaves the rest of the state, including the error message, untouched; the
client performs no transition validation at all. -/
theorem handleUpdate_absorbs_all_patches (s : TRState) (t : BranchNode) :
    handleUpdate s t = { s with resultTree := some t } := rfl

/-- C8: no environment command can be dispatched for a branch whose
environment state is inactive (the toggle is absent) or stopping (the
toggle is rendered without a click handler); a dispatch is possible exactly
when the state is stopped, emitting the start env command, or started,
emitting the stop env command. -/
theorem env_dispatch_only_when_stopped_or_started :
    branchEntryEnvControl "inactive" = EnvControl.absent ∧
    branchEntryEnvControl "stopping" = EnvControl.disabledToggle ∧
    ∀ s : String,
      dispatchOfControl (branchEntryEnvControl s) =
        (if s = "stopped" then some true
         else if s = "started" then some false else none) := by
  refine ⟨rfl, rfl, fun s => ?_⟩
  by_cases h1 : s = "inactive"
  · subst h1; rfl
  · by_cases h2 : s = "stopped"
    · subst h2; rfl
    · by_cases h3 : s = "started"
      · subst h3; rfl
      · by_cases h4 : s = "stopping"
        · subst h4; rfl
        · simp [branchEntryEnvControl, environmentIcon, dispatchOfControl,
            h1, h2, h3, h4]

theorem unreserved_ne_percent (c : Char) (h : unreservedChar c = true) : c ≠ '%' := by
  intro hc
  subst hc
  exact absurd h (by decide)

theorem percentToks_cons_raw (c : Char) (rest : List Char) (h : c ≠ '%') :
    percentToks (c :: rest) = (percentToks rest).map (PTok.raw c :: ·) := by
  match rest with
  | [] => simp [percentToks, h]
  | [h1] => simp [percentToks, h]
  | h1 :: l1 :: r2 => simp [percentToks, h]

theorem hexVal_hexDigit : ∀ b : Nat, b < 16 → hexVal (hexDigit b) = some b := by decide

theorem percentToks_percentByte (b : Nat) (hb : b < 256) (rest : List Char) :
    percentToks (percentByte b ++ rest) = (percentToks rest).map (PTok.byte b :: ·) := by
  have h1 : hexVal (hexDigit (b / 16)) = some (b / 16) := hexVal_hexDigit _ (by omega)
  have h2 : hexVal (hexDigit (b % 16)) = some (b % 16) := hexVal_hexDigit _ (by omega)
  have hb' : 16 * (b / 16) + b % 16 = b := by omega
  simp [percentByte, percentToks, h1, h2, hb']

theorem percentToks_flatMap_percentByte (bs : List Nat) (hb : ∀ b ∈ bs, b < 256)
    (rest : List Char) :
    percentToks (bs.flatMap percentByte ++ rest) =
      (percentToks rest).map (bs.map PTok.byte ++ ·) := by
  induction bs with
  | nil => simp
  | cons b bs ih =>
    rw [List.flatMap_cons, List.append_assoc,
      percentToks_percentByte b (hb b (by simp)) _,
      ih (fun x hx => hb x (by simp [hx]))]
    cases percentToks rest <;> simp

theorem char_toNat_lt (c : Char) : c.toNat < 1114112 := by
  rcases c.valid with h | h
  · exact Nat.lt_trans h (by norm_num)
  · exact h.2

theorem char_not_surrogate (c : Char) : c.toNat < 55296 ∨ 57343 < c.toNat := by
  rcases c.valid with h | h
  · exact Or.inl h
  · exact Or.inr h.1

theorem utf8Bytes_lt (n : Nat) (hn : n < 1114112) : ∀ b ∈ utf8Bytes n, b < 256 := by
  intro b hb
  unfold utf8Bytes at hb
  split_ifs at hb <;> simp at hb <;> omega

theorem percentToks_encodeChar (c : Char) (rest : List Char) :
    percentToks (encodeChar c ++ rest) = (percentToks rest).map (encToks c ++ ·) := by
  by_cases h : unreservedChar c
  · rw [encodeChar, if_pos h, encToks, if_pos h, List.singleton_append,
      percentToks_cons_raw c rest (unreserved_ne_percent c h)]
    cases percentToks rest <;> simp
  · rw [encodeChar, if_neg h, encToks, if_neg h]
    exact percentToks_flatMap_percentByte _ (utf8Bytes_lt _ (char_toNat_lt c)) rest

theorem utf8Cont1_congr (n1 n2 : List PTok → Option (List Char)) (b : Nat)
    (ts : List PTok) (h : ∀ l : List PTok, l.length ≤ ts.length → n1 l = n2 l) :
    utf8Cont1 n1 b ts = utf8Cont1 n2 b ts := by
  cases ts with
  | nil => rfl
  | cons t rest =>
    cases t with
    | raw c => rfl
    | byte b2 => simp [utf8Cont1, h rest (by simp)]

theorem utf8Cont2b_congr (n1 n2 : List PTok → Option (List Char)) (b b2 : Nat)
    (ts : List PTok) (h : ∀ l : List PTok, l.length ≤ ts.length → n1 l = n2 l) :
    utf8Cont2b n1 b b2 ts = utf8Cont2b n2 b b2 ts := by
  cases ts with
  | nil => rfl
  | cons t rest =>
    cases t with
    | raw c => rfl
    | byte b3 => simp [utf8Cont2b, h rest (by simp)]

theorem utf8Cont2_congr (n1 n2 : List PTok → Option (List Char)) (b : Nat)
    (ts : List PTok) (h : ∀ l : List PTok, l.length ≤ ts.length → n1 l = n2 l) :
    utf8Cont2 n1 b ts = utf8Cont2 n2 b ts := by
  cases ts with
  | nil => rfl
  | cons t rest =>
    cases t with
    | raw c => rfl
    | byte b2 =>
      simp only [utf8Cont2]
      rw [utf8Cont2b_congr n1 n2 b b2 rest (fun l hl => h l (by simp; omega))]

theorem utf8Cont3c_congr (n1 n2 : List PTok → Option (List Char)) (b b2 b3 : Nat)
    (ts : List PTok) (h : ∀ l : List PTok, l.length ≤ ts.length → n1 l = n2 l) :
    utf8Cont3c n1 b b2 b3 ts = utf8Cont3c n2 b b2 b3 ts := by
  cases ts with
  | nil => rfl
  | cons t rest =>
    cases t with
    | raw c => rfl
    | byte b4 => simp [utf8Cont3c, h rest (by simp)]

theorem utf8Cont3b_congr (n1 n2 : List PTok → Option (List Char)) (b b2 : Nat)
    (ts : List PTok) (h : ∀ l : List PTok, l.length ≤ ts.length → n1 l = n2 l) :
    utf8Cont3b n1 b b2 ts = utf8Cont3b n2 b b2 ts := by
  cases ts with
  | nil => rfl
  | cons t rest =>
    cases t with
    | raw c => rfl
    | byte b3 =>
      simp only [utf8Cont3b]
      rw [utf8Cont3c_congr n1 n2 b b2 b3 rest (fun l hl => h l (by simp; omega))]

theorem utf8Cont3_congr (n1 n2 : List PTok → Option (List Char)) (b : Nat)
    (ts : List PTok) (h : ∀ l : List PTok, l.length ≤ ts.length → n1 l = n2 l) :
    utf8Cont3 n1 b ts = utf8Cont3 n2 b ts := by
  cases ts with
  | nil => rfl
  | cons t rest =>
    cases t with
    | raw c => rfl
    | byte b2 =>
      simp only [utf8Cont3]
      rw [utf8Cont3b_congr n1 n2 b b2 rest (fun l hl => h l (by simp; omega))]

theorem utf8ToksF_fuel (f1 : Nat) : ∀ (f2 : Nat) (ts : List PTok),
    ts.length ≤ f1 → ts.length ≤ f2 → utf8ToksF f1 ts = utf8ToksF f2 ts := by
  induction f1 with
  | zero =>
    intro f2 ts h1 h2
    cases ts with
    | nil => cases f2 <;> rfl
    | cons t rest => simp at h1
  | succ g1 ih =>
    intro f2 ts h1 h2
    cases ts with
    | nil => cases f2 <;> rfl
    | cons t rest =>
      cases f2 with
      | zero => simp at h2
      | succ g2 =>
        have hr : rest.length ≤ g1 := by simp at h1; omega
        have hr2 : rest.length ≤ g2 := by simp at h2; omega
        have hnext : ∀ l : List PTok, l.length ≤ rest.length →
            utf8ToksF g1 l = utf8ToksF g2 l := by
          intro l hl
          exact ih g2 l (by omega) (by omega)
        cases t with
        | raw c => simp only [utf8ToksF, ih g2 rest hr hr2]
        | byte b =>
          simp only [utf8ToksF]
          rw [ih g2 rest hr hr2,
            utf8Cont1_congr (utf8ToksF g1) (utf8ToksF g2) b rest hnext,
            utf8Cont2_congr (utf8ToksF g1) (utf8ToksF g2) b rest hnext,
            utf8Cont3_congr (utf8ToksF g1) (utf8ToksF g2) b rest hnext]

theorem utf8ToksF_down (f : Nat) (ts : List PTok) (h : ts.length ≤ f) :
    utf8ToksF f ts = utf8Toks ts :=
  utf8ToksF_fuel f ts.length ts h (Nat.le_refl _)

theorem utf8Toks_raw (c : Char) (rest : List PTok) :
    utf8Toks (.raw c :: rest) = (utf8Toks rest).map (c :: ·) := by
  show utf8ToksF (PTok.raw c :: rest).length _ = _
  simp only [List.length_cons]
  rw [utf8ToksF]
  rfl

theorem utf8Toks_b1 (b : Nat) (rest : List PTok) (h : b < 128) :
    utf8Toks (.byte b :: rest) = (utf8Toks rest).map (Char.ofNat b :: ·) := by
  show utf8ToksF (PTok.byte b :: rest).length _ = _
  simp only [List.length_cons]
  rw [utf8ToksF, if_pos h]
  rfl

theorem utf8Toks_b2 (b b2 : Nat) (rest : List PTok) (h0 : ¬ b < 128)
    (h1 : ¬ b < 194) (h2 : b < 224) (hc : contByte b2 = true) :
    utf8Toks (.byte b :: .byte b2 :: rest) =
      (utf8Toks rest).map (Char.ofNat ((b - 192) * 64 + (b2 - 128)) :: ·) := by
  show utf8ToksF (PTok.byte b :: PTok.byte b2 :: rest).length _ = _
  simp only [List.length_cons]
  rw [utf8ToksF, if_neg h0, if_neg h1, if_pos h2, utf8Cont1, if_pos hc,
    utf8ToksF_down _ _ (by omega)]

theorem utf8Toks_b3 (b b2 b3 : Nat) (rest : List PTok) (h0 : ¬ b < 128)
    (h1 : ¬ b < 194) (h2 : ¬ b < 224) (h3 : b < 240)
    (hc2 : contByte b2 = true) (hc3 : contByte b3 = true)
    (hn : 2048 ≤ (b - 224) * 4096 + (b2 - 128) * 64 + (b3 - 128) ∧
      ((b - 224) * 4096 + (b2 - 128) * 64 + (b3 - 128) < 55296 ∨
        57343 < (b - 224) * 4096 + (b2 - 128) * 64 + (b3 - 128))) :
    utf8Toks (.byte b :: .byte b2 :: .byte b3 :: rest) =
      (utf8Toks rest).map
        (Char.ofNat ((b - 224) * 4096 + (b2 - 128) * 64 + (b3 - 128)) :: ·) := by
  show utf8ToksF (PTok.byte b :: PTok.byte b2 :: PTok.byte b3 :: rest).length _ = _
  simp only [List.length_cons]
  rw [utf8ToksF, if_neg h0, if_neg h1, if_neg h2, if_pos h3, utf8Cont2,
    if_pos hc2, utf8Cont2b, if_pos hc3]
  rw [if_pos (by
    simp only [Bool.and_eq_true, Bool.or_eq_true, decide_eq_true_eq]
    exact hn)]
  rw [utf8ToksF_down _ _ (by omega)]

theorem utf8Toks_b4 (b b2 b3 b4 : Nat) (rest : List PTok) (h0 : ¬ b < 128)
    (h1 : ¬ b < 194) (h2 : ¬ b < 224) (h3 : ¬ b < 240) (h4 : b < 245)
    (hc2 : contByte b2 = true) (hc3 : contByte b3 = true) (hc4 : contByte b4 = true)
    (hn : 65536 ≤ (b - 240) * 262144 + (b2 - 128) * 4096 + (b3 - 128) * 64 + (b4 - 128) ∧
      (b - 240) * 262144 + (b2 - 128) * 4096 + (b3 - 128) * 64 + (b4 - 128) < 1114112) :
    utf8Toks (.byte b :: .byte b2 :: .byte b3 :: .byte b4 :: rest) =
      (utf8Toks rest).map
        (Char.ofNat
          ((b - 240) * 262144 + (b2 - 128) * 4096 + (b3 - 128) * 64 + (b4 - 128)) :: ·) := by
  show utf8ToksF
    (PTok.byte b :: PTok.byte b2 :: PTok.byte b3 :: PTok.byte b4 :: rest).length _ = _
  simp only [List.length_cons]
  rw [utf8ToksF, if_neg h0, if_neg h1, if_neg h2, if_neg h3, if_pos h4, utf8Cont3,
    if_pos hc2, utf8Cont3b, if_pos hc3, utf8Cont3c, if_pos hc4]
  rw [if_pos (by
    simp only [Bool.and_eq_true, decide_eq_true_eq]
    exact hn)]
  rw [utf8ToksF_down _ _ (by omega)]

theorem utf8Toks_encToks (c : Char) (rest : List PTok) :
    utf8Toks (encToks c ++ rest) = (utf8Toks rest).map (c :: ·) := by
  by_cases h : unreservedChar c
  · rw [encToks, if_pos h, List.singleton_append, utf8Toks_raw]
  · rw [encToks, if_neg h]
    have hlt := char_toNat_lt c
    have hsur := char_not_surrogate c
    by_cases h1 : c.toNat < 128
    · rw [utf8Bytes, if_pos h1]
      simp only [List.map_cons, List.map_nil, List.cons_append, List.nil_append]
      rw [utf8Toks_b1 _ _ h1, Char.ofNat_toNat]
    · by_cases h2 : c.toNat < 2048
      · rw [utf8Bytes, if_neg h1, if_pos h2]
        simp only [List.map_cons, List.map_nil, List.cons_append, List.nil_append]
        rw [utf8Toks_b2 _ _ _ (by omega) (by omega) (by omega)
          (by simp only [contByte, Bool.and_eq_true, decide_eq_true_eq]; omega)]
        have ha : (192 + c.toNat / 64 - 192) * 64 + (128 + c.toNat % 64 - 128) =
            c.toNat := by omega
        rw [ha, Char.ofNat_toNat]
      · by_cases h3 : c.toNat < 65536
        · rw [utf8Bytes, if_neg h1, if_neg h2, if_pos h3]
          simp only [List.map_cons, List.map_nil, List.cons_append, List.nil_append]
          rw [utf8Toks_b3 _ _ _ _ (by omega) (by omega) (by omega) (by omega)
            (by simp only [contByte, Bool.and_eq_true, decide_eq_true_eq]; omega)
            (by simp only [contByte, Bool.and_eq_true, decide_eq_true_eq]; omega)
            (by
              constructor
              · omega
              · rcases hsur with hs | hs
                · exact Or.inl (by omega)
                · exact Or.inr (by omega))]
          have ha : (224 + c.toNat / 4096 - 224) * 4096 +
              (128 + c.toNat / 64 % 64 - 128) * 64 + (128 + c.toNat % 64 - 128) =
              c.toNat := by omega
          rw [ha, Char.ofNat_toNat]
        · rw [utf8Bytes, if_neg h1, if_neg h2, if_neg h3]
          simp only [List.map_cons, List.map_nil, List.cons_append, List.nil_append]
          rw [utf8Toks_b4 _ _ _ _ _ (by omega) (by omega) (by omega) (by omega)
            (by omega)
            (by simp only [contByte, Bool.and_eq_true, decide_eq_true_eq]; omega)
            (by simp only [contByte, Bool.and_eq_true, decide_eq_true_eq]; omega)
            (by simp only [contByte, Bool.and_eq_true, decide_eq_true_eq]; omega)
            (by constructor <;> omega)]
          have ha : (240 + c.toNat / 262144 - 240) * 262144 +
              (128 + c.toNat / 4096 % 64 - 128) * 4096 +
              (128 + c.toNat / 64 % 64 - 128) * 64 + (128 + c.toNat % 64 - 128) =
              c.toNat := by omega
          rw [ha, Char.ofNat_toNat]

theorem percentToks_encode (s : List Char) :
    percentToks (encodeURIComponent s) = some (s.flatMap encToks) := by
  induction s with
  | nil => rfl
  | cons c cs ih =>
    show percentToks (encodeChar c ++ cs.flatMap encodeChar) = _
    rw [show cs.flatMap encodeChar = encodeURIComponent cs from rfl,
      percentToks_encodeChar, ih]
    simp

theorem utf8Toks_flatMap_encToks (s : List Char) (rest : List PTok) :
    utf8Toks (s.flatMap encToks ++ rest) = (utf8Toks rest).map (s ++ ·) := by
  induction s with
  | nil => simp
  | cons c cs ih =>
    rw [List.flatMap_cons, List.append_assoc, utf8Toks_encToks, ih]
    cases utf8Toks rest <;> simp

theorem decode_encode (s : List Char) :
    decodeURIComponent (encodeURIComponent s) = some s := by
  rw [decodeURIComponent, percentToks_encode]
  have h := utf8Toks_flatMap_encToks s []
  rw [List.append_nil] at h
  show utf8Toks (s.flatMap encToks) = some s
  rw [h]
  simp [utf8Toks, utf8ToksF]

theorem encodeChar_ne_nil (c : Char) : encodeChar c ≠ [] := by
  by_cases h : unreservedChar c
  · simp [encodeChar, h]
  · rw [encodeChar, if_neg h]
    unfold utf8Bytes
    split_ifs <;> simp [percentByte]

theorem hexDigit_ne_slash : ∀ m : Nat, m < 16 → hexDigit m ≠ '/' := by decide

theorem slash_not_mem_percentByte (b : Nat) (hb : b < 256) :
    '/' ∉ percentByte b := by
  intro hm
  simp only [percentByte, List.mem_cons, List.not_mem_nil, or_false] at hm
  rcases hm with h | h | h
  · exact absurd h (by decide)
  · exact hexDigit_ne_slash (b / 16) (by omega) h.symm
  · exact hexDigit_ne_slash (b % 16) (by omega) h.symm

theorem slash_not_mem_encodeChar (c : Char) : '/' ∉ encodeChar c := by
  by_cases h : unreservedChar c
  · rw [encodeChar, if_pos h]
    intro hm
    simp only [List.mem_singleton] at hm
    subst hm
    exact absurd h (by decide)
  · rw [encodeChar, if_neg h]
    intro hm
    rw [List.mem_flatMap] at hm
    obtain ⟨b, hb1, hb2⟩ := hm
    exact slash_not_mem_percentByte b (utf8Bytes_lt _ (char_toNat_lt c) b hb1) hb2

theorem encodeURIComponent_ne_nil (s : List Char) (h : s ≠ []) :
    encodeURIComponent s ≠ [] := by
  cases s with
  | nil => exact absurd rfl h
  | cons c cs =>
    show encodeChar c ++ cs.flatMap encodeChar ≠ []
    simp [encodeChar_ne_nil c]

theorem slash_not_mem_encode (s : List Char) : '/' ∉ encodeURIComponent s := by
  intro hm
  rw [encodeURIComponent, List.mem_flatMap] at hm
  obtain ⟨c, _, hc⟩ := hm
  exact slash_not_mem_encodeChar c hc

theorem splitSlash_no_slash (a : List Char) (h : '/' ∉ a) : splitSlash a = [a] := by
  induction a with
  | nil => rfl
  | cons c cs ih =>
    have hc : ¬ c = '/' := fun hx => h (by simp [hx])
    rw [splitSlash, if_neg hc, ih (fun hm => h (List.mem_cons_of_mem c hm))]

theorem splitSlash_append (a r : List Char) (h : '/' ∉ a) :
    splitSlash (a ++ '/' :: r) = a :: splitSlash r := by
  induction a with
  | nil => simp [splitSlash]
  | cons c cs ih =>
    have hc : ¬ c = '/' := fun hx => h (by simp [hx])
    rw [List.cons_append, splitSlash, if_neg hc,
      ih (fun hm => h (List.mem_cons_of_mem c hm))]

theorem splitSlash_joinSlash (ss : List (List Char)) (hne : ss ≠ [])
    (h : ∀ s ∈ ss, '/' ∉ s) : splitSlash (joinSlash ss) = ss := by
  induction ss with
  | nil => exact absurd rfl hne
  | cons s rest ih =>
    cases rest with
    | nil => exact splitSlash_no_slash s (h s (by simp))
    | cons t r =>
      rw [joinSlash, splitSlash_append _ _ (h s (by simp)),
        ih (by simp) (fun x hx => h x (List.mem_cons_of_mem s hx))]

theorem joinSlash_ne_nil (s : List Char) (rest : List (List Char)) (h : s ≠ []) :
    joinSlash (s :: rest) ≠ [] := by
  cases rest with
  | nil => exact h
  | cons t r =>
    show s ++ '/' :: joinSlash (t :: r) ≠ []
    simp

theorem joinSlash_head (s : List Char) (rest : List (List Char)) (h : s ≠ []) :
    (joinSlash (s :: rest)).head? = s.head? := by
  cases rest with
  | nil => rfl
  | cons t r =>
    show (s ++ '/' :: joinSlash (t :: r)).head? = s.head?
    cases s with
    | nil => exact absurd rfl h
    | cons x xs => rfl

theorem joinSlash_getLast_ne_slash (ss : List (List Char)) (hne : ss ≠ [])
    (h : ∀ s ∈ ss, s ≠ [] ∧ '/' ∉ s) : (joinSlash ss).getLast? ≠ some '/' := by
  induction ss with
  | nil => exact absurd rfl hne
  | cons s rest ih =>
    cases rest with
    | nil =>
      intro hl
      exact (h s (by simp)).2 (List.mem_of_mem_getLast? hl)
    | cons t r =>
      show (s ++ '/' :: joinSlash (t :: r)).getLast? ≠ some '/'
      rw [List.getLast?_append_of_ne_nil s (by simp)]
      have hJ : joinSlash (t :: r) ≠ [] :=
        joinSlash_ne_nil t r (h t (by simp)).1
      cases hj : joinSlash (t :: r) with
      | nil => exact absurd hj hJ
      | cons j js =>
        rw [List.getLast?_cons_cons, ← hj]
        exact ih (by simp) (fun x hx => h x (List.mem_cons_of_mem s hx))

theorem mapOption_decode_encode (ss : List (List Char)) :
    mapOption decodeURIComponent (ss.map encodeURIComponent) = some ss := by
  induction ss with
  | nil => rfl
  | cons s rest ih =>
    rw [List.map_cons, mapOption, decode_encode, ih]

theorem trimSlashes_of_bounds (J : List Char) (hh : J.head? ≠ some '/')
    (hl : J.getLast? ≠ some '/') : trimSlashes ('/' :: J) = J := by
  unfold trimSlashes
  have h1 : List.dropWhile (fun c => c = '/') ('/' :: J) =
      List.dropWhile (fun c => c = '/') J := by
    simp [List.dropWhile_cons]
  have h2 : List.dropWhile (fun c => c = '/') J = J := by
    cases J with
    | nil => rfl
    | cons x xs =>
      have hx : ¬ x = '/' := fun he => hh (by simp [he])
      simp [List.dropWhile_cons, hx]
  rw [h1, h2]
  have h3 : List.dropWhile (fun c => c = '/') J.reverse = J.reverse := by
    cases hrev : J.reverse with
    | nil => rfl
    | cons x xs =>
      have hx1 : J.getLast? = some x := by
        rw [← List.head?_reverse, hrev]
        rfl
      have hx : ¬ x = '/' := fun he => hl (by rw [hx1, he])
      simp [List.dropWhile_cons, hx]
  rw [h3, List.reverse_reverse]

theorem trimSlashes_replicate (n : Nat) : trimSlashes (List.replicate n '/') = [] := by
  unfold trimSlashes
  have h1 : List.dropWhile (fun c => c = '/') (List.replicate n '/') = [] :=
    List.dropWhile_eq_nil_iff.mpr (by
      intro x hx
      rw [List.eq_of_mem_replicate hx]
      simp)
  rw [h1]
  rfl

/-- C10: address parsing inverts link construction. For every list of
non-empty segment strings, parseSelection applied to the path built as a
leading slash followed by the percent-encoded segments joined by slashes
returns exactly the original segments; and parseSelection of a null, an
empty, or an all-slashes path returns the empty selection. -/
theorem parseSelection_inverts_links (ss : List (List Char))
    (hne : ∀ s ∈ ss, s ≠ []) :
    parseSelection (some ('/' :: joinSlash (ss.map encodeURIComponent))) = some ss ∧
    parseSelection none = some [] ∧
    parseSelection (some []) = some [] ∧
    ∀ n : Nat, parseSelection (some (List.replicate n '/')) = some [] := by
  refine ⟨?_, rfl, rfl, ?_⟩
  · cases ss with
    | nil => decide
    | cons s1 rest1 =>
      have hs1 : encodeURIComponent s1 ≠ [] :=
        encodeURIComponent_ne_nil s1 (hne s1 (by simp))
      have hJne : joinSlash ((s1 :: rest1).map encodeURIComponent) ≠ [] := by
        rw [List.map_cons]
        exact joinSlash_ne_nil _ _ hs1
      have hh : (joinSlash ((s1 :: rest1).map encodeURIComponent)).head? ≠
          some '/' := by
        rw [List.map_cons, joinSlash_head _ _ hs1]
        intro hx
        have hmem : '/' ∈ encodeURIComponent s1 := by
          cases he : encodeURIComponent s1 with
          | nil => exact absurd he hs1
          | cons c cs =>
            rw [he] at hx
            simp only [List.head?_cons, Option.some.injEq] at hx
            rw [hx]
            simp
        exact slash_not_mem_encode s1 hmem
      have hl : (joinSlash ((s1 :: rest1).map encodeURIComponent)).getLast? ≠
          some '/' := by
        apply joinSlash_getLast_ne_slash
        · simp
        · intro x hx
          rw [List.mem_map] at hx
          obtain ⟨s, hs, hxe⟩ := hx
          subst hxe
          exact ⟨encodeURIComponent_ne_nil s (hne s hs), slash_not_mem_encode s⟩
      show parseSelection
        (some ('/' :: joinSlash ((s1 :: rest1).map encodeURIComponent))) = _
      show (if ('/' :: joinSlash ((s1 :: rest1).map encodeURIComponent)) = []
        then some []
        else
          let trimmed :=
            trimSlashes ('/' :: joinSlash ((s1 :: rest1).map encodeURIComponent))
          if trimmed = [] then some []
          else mapOption decodeURIComponent (splitSlash trimmed)) = _
      rw [if_neg (by simp)]
      simp only [trimSlashes_of_bounds _ hh hl]
      rw [if_neg hJne]
      rw [splitSlash_joinSlash _ (by simp) (by
        intro x hx
        rw [List.mem_map] at hx
        obtain ⟨s, hs, hxe⟩ := hx
        subst hxe
        exact slash_not_mem_encode s)]
      exact mapOption_decode_encode (s1 :: rest1)
  · intro n
    cases n with
    | zero => rfl
    | succ m =>
      show (if (List.replicate (m + 1) '/') = [] then some []
        else
          let trimmed := trimSlashes (List.replicate (m + 1) '/')
          if trimmed = [] then some []
          else mapOption decodeURIComponent (splitSlash trimmed)) = some []
      rw [if_neg (by simp)]
      simp only [trimSlashes_replicate]
      rfl

/-- C10 witness: a concrete two-segment selection, the second segment
containing a slash, survives the link-building and parsing round trip. -/
theorem parseSelection_inverts_links_witness :
    parseSelection
      (some ('/' :: joinSlash ([['a'], ['b', '/', 'c']].map encodeURIComponent))) =
      some [['a'], ['b', '/', 'c']] :=
  (parseSelection_inverts_links [['a'], ['b', '/', 'c']] (by decide)).1

theorem lookupA_mem {α : Type} (o : List (String × α)) (k : String) (v : α)
    (h : lookupA o k = some v) : (k, v) ∈ o := by
  induction o with
  | nil => cases h
  | cons p rest ih =>
    obtain ⟨k', v'⟩ := p
    rw [lookupA] at h
    by_cases he : k' = k
    · rw [if_pos he] at h
      cases h
      subst he
      exact List.mem_cons_self _ _
    · rw [if_neg he] at h
      exact List.mem_cons_of_mem _ (ih h)

theorem lookupA_eq_none {α : Type} (o : List (String × α)) (k : String)
    (h : k ∉ o.map Prod.fst) : lookupA o k = none := by
  induction o with
  | nil => rfl
  | cons p rest ih =>
    obtain ⟨k', v'⟩ := p
    rw [lookupA, if_neg (fun he => h (by simp [he]))]
    exact ih (fun hm => h (by simp at hm ⊢; exact Or.inr hm))

theorem lookupA_objSet_self (o : List (String × JVal)) (k : String) (v : JVal) :
    lookupA (objSet o k v) k = some v := by
  induction o with
  | nil => simp [objSet, lookupA]
  | cons p rest ih =>
    obtain ⟨k', v'⟩ := p
    rw [objSet]
    by_cases he : k' = k
    · rw [if_pos he, lookupA, if_pos rfl]
    · rw [if_neg he, lookupA, if_neg he]
      exact ih

theorem lookupA_objSet_ne (o : List (String × JVal)) (k : String) (v : JVal)
    (k' : String) (h : k' ≠ k) : lookupA (objSet o k v) k' = lookupA o k' := by
  induction o with
  | nil =>
    rw [objSet, lookupA, lookupA, if_neg (fun he => h he.symm)]
    rfl
  | cons p rest ih =>
    obtain ⟨k1, v1⟩ := p
    rw [objSet]
    by_cases he : k1 = k
    · subst he
      rw [if_pos rfl, lookupA, lookupA, if_neg (fun hx => h hx.symm),
        if_neg (fun hx => h hx.symm)]
    · rw [if_neg he, lookupA, lookupA]
      by_cases he' : k1 = k'
      · rw [if_pos he', if_pos he']
      · rw [if_neg he', if_neg he', ih]

theorem objSet_mem (o : List (String × JVal)) (k : String) (v : JVal)
    (p : String × JVal) (h : p ∈ objSet o k v) : p = (k, v) ∨ p ∈ o := by
  induction o with
  | nil => simp [objSet] at h; exact Or.inl h
  | cons q rest ih =>
    obtain ⟨k1, v1⟩ := q
    rw [objSet] at h
    by_cases he : k1 = k
    · rw [if_pos he] at h
      rcases List.mem_cons.mp h with h | h
      · exact Or.inl h
      · exact Or.inr (List.mem_cons_of_mem _ h)
    · rw [if_neg he] at h
      rcases List.mem_cons.mp h with h | h
      · exact Or.inr (by simp [h])
      · rcases ih h with h | h
        · exact Or.inl h
        · exact Or.inr (List.mem_cons_of_mem _ h)

theorem isSome_lookupA_objSet (o : List (String × JVal)) (k : String) (v : JVal)
    (k' : String) (h : (lookupA o k').isSome = true) :
    (lookupA (objSet o k v) k').isSome = true := by
  by_cases he : k' = k
  · subst he
    rw [lookupA_objSet_self]
    rfl
  · rw [lookupA_objSet_ne o k v k' he]
    exact h

theorem length_setFieldAt (st : List (List (String × JVal))) (a : Nat)
    (k : String) (v : JVal) : (setFieldAt st a k v).length = st.length :=
  List.length_set st a _

theorem getObj_setFieldAt_ne (st : List (List (String × JVal))) (a : Nat)
    (k : String) (v : JVal) (b : Nat) (h : b ≠ a) :
    getObj (setFieldAt st a k v) b = getObj st b := by
  unfold getObj setFieldAt
  rw [List.getD_eq_getElem?_getD, List.getElem?_set_ne (fun he => h he.symm),
    ← List.getD_eq_getElem?_getD]

theorem getObj_setFieldAt_self (st : List (List (String × JVal))) (a : Nat)
    (k : String) (v : JVal) (h : a < st.length) :
    getObj (setFieldAt st a k v) a = objSet (getObj st a) k v := by
  unfold getObj setFieldAt
  rw [List.getD_eq_getElem?_getD, List.getElem?_set_self h]
  rfl

theorem getObj_append_lt (st : List (List (String × JVal)))
    (o : List (String × JVal)) (b : Nat) (h : b < st.length) :
    getObj (st ++ [o]) b = getObj st b := by
  unfold getObj
  rw [List.getD_append _ _ _ _ h]

theorem getObj_append_self (st : List (List (String × JVal)))
    (o : List (String × JVal)) : getObj (st ++ [o]) st.length = o := by
  unfold getObj
  rw [List.getD_eq_getElem?_getD, List.getElem?_concat_length]
  rfl

theorem getObj_oob (st : List (List (String × JVal))) (a : Nat)
    (h : st.length ≤ a) : getObj st a = [] := by
  unfold getObj
  rw [List.getD_eq_getElem?_getD, List.getElem?_eq_none h]
  rfl

theorem edge_src_lt (st : List (List (String × JVal))) (x : Nat) (k : String)
    (y : Nat) (h : edgeAt st x k y) : x < st.length := by
  by_contra hx
  rw [edgeAt, getObj_oob st x (by omega)] at h
  cases h

theorem mergeFields_nil (st : List (List (String × JVal))) (dest : Nat) :
    mergeFields st dest [] = st := by rw [mergeFields]

theorem mergeFields_pstr (st : List (List (String × JVal))) (dest : Nat)
    (k : String) (s : String) (rest : List (String × PVal)) :
    mergeFields st dest ((k, .pstr s) :: rest) =
      mergeFields (setFieldAt st dest k (.vstr s)) dest rest := by
  rw [mergeFields]

theorem mergeFields_pobj_ref (st : List (List (String × JVal))) (dest : Nat)
    (k : String) (fs rest : List (String × PVal)) (a : Nat)
    (h : lookupA (getObj st dest) k = some (.vref a)) :
    mergeFields st dest ((k, .pobj fs) :: rest) =
      mergeFields (mergeFields st a fs) dest rest := by
  rw [mergeFields, h]

theorem mergeFields_pobj_new (st : List (List (String × JVal))) (dest : Nat)
    (k : String) (fs rest : List (String × PVal))
    (h : ∀ a, lookupA (getObj st dest) k ≠ some (.vref a)) :
    mergeFields st dest ((k, .pobj fs) :: rest) =
      mergeFields
        (setFieldAt (mergeFields (st ++ [[]]) st.length fs) dest k
          (.vref st.length)) dest rest := by
  rw [mergeFields]
  cases hl : lookupA (getObj st dest) k with
  | none => rfl
  | some v =>
    cases v with
    | vstr s => rfl
    | vref a => exact absurd hl (h a)

theorem merge_length (st : List (List (String × JVal))) (dest : Nat)
    (ps : List (String × PVal)) :
    st.length ≤ (mergeFields st dest ps).length := by
  induction st, dest, ps using mergeFields.induct with
  | case1 st dest => rw [mergeFields_nil]
  | case2 st dest k s rest ih1 =>
    rw [mergeFields_pstr]
    rw [length_setFieldAt] at ih1
    exact ih1
  | case3 st dest k fs rest a hl ih2 ih1 =>
    rw [mergeFields_pobj_ref st dest k fs rest a hl]
    exact Nat.le_trans ih2 ih1
  | case4 st dest k fs rest hl ih2 ih1 =>
    rw [mergeFields_pobj_new st dest k fs rest (fun a ha => hl a ha)]
    rw [length_setFieldAt] at ih1
    have h0 : st.length ≤ (st ++ [[]]).length := by simp
    exact Nat.le_trans h0 (Nat.le_trans ih2 ih1)

theorem hasKeyB_setFieldAt (st : List (List (String × JVal))) (b : Nat)
    (k' : String) (v : JVal) (a : Nat) (k : String)
    (h : hasKeyB st a k = true) : hasKeyB (setFieldAt st b k' v) a k = true := by
  by_cases he : a = b
  · subst he
    have ha : a < st.length := by
      by_contra hx
      rw [hasKeyB, getObj_oob st a (by omega)] at h
      cases h
    rw [hasKeyB, getObj_setFieldAt_self st a k' v ha]
    exact isSome_lookupA_objSet _ _ _ _ h
  · rw [hasKeyB, getObj_setFieldAt_ne st b k' v a he]
    exact h

theorem hasKeyB_append (st : List (List (String × JVal)))
    (o : List (String × JVal)) (a : Nat) (k : String)
    (h : hasKeyB st a k = true) : hasKeyB (st ++ [o]) a k = true := by
  have ha : a < st.length := by
    by_contra hx
    rw [hasKeyB, getObj_oob st a (by omega)] at h
    cases h
  rw [hasKeyB, getObj_append_lt st o a ha]
  exact h

theorem merge_hasKey (st : List (List (String × JVal))) (dest : Nat)
    (ps : List (String × PVal)) (a : Nat) (k : String)
    (h : hasKeyB st a k = true) :
    hasKeyB (mergeFields st dest ps) a k = true := by
  induction st, dest, ps using mergeFields.induct generalizing a k with
  | case1 st dest => rw [mergeFields_nil]; exact h
  | case2 st dest k' s rest ih1 =>
    rw [mergeFields_pstr]
    exact ih1 a k (hasKeyB_setFieldAt st dest k' (.vstr s) a k h)
  | case3 st dest k' fs rest a' hl ih2 ih1 =>
    rw [mergeFields_pobj_ref st dest k' fs rest a' hl]
    exact ih1 a k (ih2 a k h)
  | case4 st dest k' fs rest hl ih2 ih1 =>
    rw [mergeFields_pobj_new st dest k' fs rest (fun x hx => hl x hx)]
    exact ih1 a k
      (hasKeyB_setFieldAt _ dest k' _ a k (ih2 a k (hasKeyB_append st [] a k h)))

theorem edge_setFieldAt (st : List (List (String × JVal))) (a : Nat)
    (k' : String) (v : JVal) (x : Nat) (k : String) (y : Nat)
    (h : edgeAt (setFieldAt st a k' v) x k y) :
    (x = a ∧ k = k' ∧ v = .vref y) ∨ edgeAt st x k y := by
  by_cases he : x = a
  · subst he
    by_cases hx : x < st.length
    · rw [edgeAt, getObj_setFieldAt_self st x k' v hx] at h
      by_cases hk : k = k'
      · subst hk
        rw [lookupA_objSet_self] at h
        cases h
        exact Or.inl ⟨rfl, rfl, rfl⟩
      · rw [lookupA_objSet_ne _ _ _ _ hk] at h
        exact Or.inr h
    · rw [edgeAt] at h
      unfold setFieldAt at h
      rw [show st.set x (objSet (getObj st x) k' v) = st from
        List.set_eq_of_length_le (by omega)] at h
      exact Or.inr h
  · rw [edgeAt, getObj_setFieldAt_ne st a k' v x he] at h
    exact Or.inr h

theorem edge_append_back (st : List (List (String × JVal))) (x : Nat)
    (k : String) (y : Nat) (h : edgeAt (st ++ [[]]) x k y) : edgeAt st x k y := by
  by_cases hx : x < st.length
  · rw [edgeAt, getObj_append_lt st [] x hx] at h
    exact h
  · by_cases hx2 : x = st.length
    · subst hx2
      rw [edgeAt, getObj_append_self] at h
      cases h
    · rw [edgeAt, getObj_oob (st ++ [[]]) x (by simp; omega)] at h
      cases h

theorem merge_edge_mono (st : List (List (String × JVal))) (dest : Nat)
    (ps : List (String × PVal)) (x : Nat) (k : String) (y : Nat)
    (hy : y < st.length) (h : edgeAt (mergeFields st dest ps) x k y) :
    edgeAt st x k y := by
  induction st, dest, ps using mergeFields.induct generalizing x k y with
  | case1 st dest => rw [mergeFields_nil] at h; exact h
  | case2 st dest k' s rest ih1 =>
    rw [mergeFields_pstr] at h
    rcases ih1 x k y (by rw [length_setFieldAt]; exact hy) h with h'
    rcases edge_setFieldAt st dest k' (.vstr s) x k y h' with ⟨-, -, hv⟩ | h''
    · cases hv
    · exact h''
  | case3 st dest k' fs rest a hl ih2 ih1 =>
    rw [mergeFields_pobj_ref st dest k' fs rest a hl] at h
    have hy2 : y < (mergeFields st a fs).length :=
      Nat.lt_of_lt_of_le hy (merge_length st a fs)
    exact ih2 x k y hy (ih1 x k y hy2 h)
  | case4 st dest k' fs rest hl ih2 ih1 =>
    rw [mergeFields_pobj_new st dest k' fs rest (fun a ha => hl a ha)] at h
    have hy0 : y < (st ++ [[]]).length := by simp; omega
    have hy2 : y < (mergeFields (st ++ [[]]) st.length fs).length :=
      Nat.lt_of_lt_of_le hy0 (merge_length _ _ _)
    have h1 := ih1 x k y (by rw [length_setFieldAt]; exact hy2) h
    rcases edge_setFieldAt _ dest k' _ x k y h1 with ⟨-, -, hv⟩ | h2
    · cases hv
      omega
    · exact edge_append_back st x k y (ih2 x k y hy0 h2)

theorem reach_trans (st : List (List (String × JVal))) {a b c : Nat}
    (h1 : Reaches st a b) (h2 : Reaches st b c) : Reaches st a c := by
  induction h1 with
  | refl => exact h2
  | head k e _ ih => exact .head k e (ih h2)

theorem reach_last (st : List (List (String × JVal))) {a x : Nat}
    (h : Reaches st a x) :
    a = x ∨ ∃ y k, Reaches st a y ∧ edgeAt st y k x := by
  induction h with
  | refl => exact Or.inl rfl
  | @head a c b k e hr ih =>
    rcases ih with rfl | ⟨y, k', hy, e'⟩
    · exact Or.inr ⟨a, k, .refl a, e⟩
    · exact Or.inr ⟨y, k', .head k e hy, e'⟩

theorem reach_empty (st : List (List (String × JVal))) (a : Nat)
    (h : getObj st a = []) {b : Nat} (hr : Reaches st a b) : b = a := by
  cases hr with
  | refl => rfl
  | head k e _ =>
    rw [edgeAt, h] at e
    cases e

theorem wfX_edge (st : List (List (String × JVal))) (n : Nat) (hw : wfX st n)
    {x : Nat} {k : String} {y : Nat} (e : edgeAt st x k y) (hx : x ≠ n) :
    x < y ∧ y < st.length := by
  have hm := lookupA_mem _ _ _ e
  have hxl := edge_src_lt st x k y e
  have hv := hw.1 x hxl hx (k, .vref y) hm
  simp only [valFwd, Bool.and_eq_true, decide_eq_true_eq] at hv
  exact hv

theorem wfX_edge_n (st : List (List (String × JVal))) (n : Nat) (hw : wfX st n)
    {k : String} {y : Nat} (e : edgeAt st n k y) : y < st.length := by
  have hm := lookupA_mem _ _ _ e
  have hv := hw.2.1 (k, .vref y) hm
  simp only [valBounded, decide_eq_true_eq] at hv
  exact hv

theorem edge_ne_n (st : List (List (String × JVal))) (n : Nat) (hw : wfX st n)
    {x : Nat} {k : String} {y : Nat} (e : edgeAt st x k y) : y ≠ n :=
  fun h => hw.2.2 x k (h ▸ e)

theorem reach_to_unref (st : List (List (String × JVal))) (n : Nat)
    (hw : wfX st n) {x : Nat} (h : Reaches st x n) : x = n := by
  have aux : ∀ {a y : Nat}, Reaches st a y → y = n → a = n := by
    intro a y hr
    induction hr with
    | refl => exact fun hb => hb
    | @head a c b k e _ ih =>
      intro hb
      exact absurd ((ih hb) ▸ e) (hw.2.2 a k)
  exact aux h rfl

theorem reach_le_x (st : List (List (String × JVal))) (n : Nat) (hw : wfX st n)
    {x y : Nat} (h : Reaches st x y) : x ≠ n → x ≤ y := by
  induction h with
  | refl => exact fun _ => Nat.le_refl _
  | @head a c b k e hr ih =>
    intro hx
    have hcn : c ≠ n := edge_ne_n st n hw e
    exact Nat.le_trans (Nat.le_of_lt (wfX_edge st n hw e hx).1) (ih hcn)

theorem reach_lt_len (st : List (List (String × JVal))) (n : Nat)
    (hw : wfX st n) {a x : Nat} (h : Reaches st a x) : a < st.length →
    x < st.length := by
  induction h with
  | refl => exact fun ha => ha
  | @head a c b k e hr ih =>
    intro _
    by_cases han : a = n
    · have e2 : edgeAt st n k c := han ▸ e
      exact ih (wfX_edge_n st n hw e2)
    · exact ih (wfX_edge st n hw e han).2

theorem valFwd_mono (v : JVal) (i len len' : Nat) (h : valFwd v i len = true)
    (hl : len ≤ len') : valFwd v i len' = true := by
  cases v with
  | vstr s => rfl
  | vref j =>
    simp only [valFwd, Bool.and_eq_true, decide_eq_true_eq] at h ⊢
    omega

theorem valBounded_mono (v : JVal) (len len' : Nat)
    (h : valBounded v len = true) (hl : len ≤ len') :
    valBounded v len' = true := by
  cases v with
  | vstr s => rfl
  | vref j =>
    simp only [valBounded, decide_eq_true_eq] at h ⊢
    omega

theorem wfX_setFieldAt_str (st : List (List (String × JVal))) (n a : Nat)
    (k : String) (s : String) (hw : wfX st n) :
    wfX (setFieldAt st a k (.vstr s)) n := by
  by_cases ha : a < st.length
  case neg =>
    rw [show setFieldAt st a k (.vstr s) = st from
      List.set_eq_of_length_le (by omega)]
    exact hw
  refine ⟨?_, ?_, ?_⟩
  · intro x hx hxn p hp
    rw [length_setFieldAt] at hx ⊢
    by_cases he : x = a
    · subst he
      rw [getObj_setFieldAt_self st x k _ ha] at hp
      rcases objSet_mem _ _ _ _ hp with rfl | hp
      · rfl
      · exact hw.1 x hx hxn p hp
    · rw [getObj_setFieldAt_ne st a k _ x he] at hp
      exact hw.1 x hx hxn p hp
  · intro p hp
    rw [length_setFieldAt]
    by_cases he : n = a
    · subst he
      rw [getObj_setFieldAt_self st n k _ ha] at hp
      rcases objSet_mem _ _ _ _ hp with rfl | hp
      · rfl
      · exact hw.2.1 p hp
    · rw [getObj_setFieldAt_ne st a k _ n he] at hp
      exact hw.2.1 p hp
  · intro x k' he
    rcases edge_setFieldAt st a k _ x k' n he with ⟨-, -, hv⟩ | he'
    · cases hv
    · exact hw.2.2 x k' he'

theorem wfX_setFieldAt_ref (st : List (List (String × JVal))) (n a : Nat)
    (k : String) (j : Nat) (hw : wfX st n) (ha : a < st.length) (haj : a < j)
    (hj : j < st.length) (hjn : j ≠ n) :
    wfX (setFieldAt st a k (.vref j)) n := by
  refine ⟨?_, ?_, ?_⟩
  · intro x hx hxn p hp
    rw [length_setFieldAt] at hx ⊢
    by_cases he : x = a
    · subst he
      rw [getObj_setFieldAt_self st x k _ ha] at hp
      rcases objSet_mem _ _ _ _ hp with rfl | hp
      · simp only [valFwd, Bool.and_eq_true, decide_eq_true_eq]
        exact ⟨haj, hj⟩
      · exact hw.1 x hx hxn p hp
    · rw [getObj_setFieldAt_ne st a k _ x he] at hp
      exact hw.1 x hx hxn p hp
  · intro p hp
    rw [length_setFieldAt]
    by_cases he : n = a
    · subst he
      rw [getObj_setFieldAt_self st n k _ ha] at hp
      rcases objSet_mem _ _ _ _ hp with rfl | hp
      · simp only [valBounded, decide_eq_true_eq]
        exact hj
      · exact hw.2.1 p hp
    · rw [getObj_setFieldAt_ne st a k _ n he] at hp
      exact hw.2.1 p hp
  · intro x k' he
    rcases edge_setFieldAt st a k _ x k' n he with ⟨-, -, hv⟩ | he'
    · cases hv
      exact hjn rfl
    · exact hw.2.2 x k' he'

theorem wfX_append_empty (st : List (List (String × JVal))) (n : Nat)
    (hw : wfX st n) : wfX (st ++ [[]]) n := by
  refine ⟨?_, ?_, ?_⟩
  · intro x hx hxn p hp
    simp only [List.length_append, List.length_cons, List.length_nil] at hx
    by_cases he : x < st.length
    · rw [getObj_append_lt st [] x he] at hp
      exact valFwd_mono _ _ _ _ (hw.1 x he hxn p hp) (by simp)
    · have : x = st.length := by omega
      subst this
      rw [getObj_append_self] at hp
      cases hp
  · intro p hp
    by_cases he : n < st.length
    · rw [getObj_append_lt st [] n he] at hp
      exact valBounded_mono _ _ _ (hw.2.1 p hp) (by simp)
    · by_cases he2 : n = st.length
      · subst he2
        rw [getObj_append_self] at hp
        cases hp
      · rw [getObj_oob (st ++ [[]]) n (by simp; omega)] at hp
        cases hp
  · intro x k he
    exact hw.2.2 x k (edge_append_back st x k n he)

theorem merge_wfX (st : List (List (String × JVal))) (dest : Nat)
    (ps : List (String × PVal)) (n : Nat) :
    wfX st n → n < st.length → dest < st.length →
    wfX (mergeFields st dest ps) n := by
  induction st, dest, ps using mergeFields.induct with
  | case1 st dest =>
    intro hw _ _
    rw [mergeFields_nil]
    exact hw
  | case2 st dest k s rest ih1 =>
    intro hw hn hdest
    rw [mergeFields_pstr]
    exact ih1 (wfX_setFieldAt_str st n dest k s hw)
      (by rw [length_setFieldAt]; exact hn)
      (by rw [length_setFieldAt]; exact hdest)
  | case3 st dest k fs rest a hl ih2 ih1 =>
    intro hw hn hdest
    rw [mergeFields_pobj_ref st dest k fs rest a hl]
    have ha : a < st.length := by
      by_cases hdn : dest = n
      · exact wfX_edge_n st n hw (hdn ▸ hl)
      · exact (wfX_edge st n hw hl hdn).2
    have hw1 := ih2 hw hn ha
    have hlen := merge_length st a fs
    exact ih1 hw1 (by omega) (by omega)
  | case4 st dest k fs rest hl ih2 ih1 =>
    intro hw hn hdest
    rw [mergeFields_pobj_new st dest k fs rest (fun x hx => hl x hx)]
    have hw0 := wfX_append_empty st n hw
    have hlen0 : (st ++ [[]]).length = st.length + 1 := by simp
    have hw2 := ih2 hw0 (by omega) (by omega)
    have hlen2 := merge_length (st ++ [[]]) st.length fs
    have hw3 := wfX_setFieldAt_ref (mergeFields (st ++ [[]]) st.length fs) n
      dest k st.length hw2 (by omega) hdest (by omega) (by omega)
    exact ih1 hw3
      (by rw [length_setFieldAt]; omega)
      (by rw [length_setFieldAt]; omega)

theorem reach_back (st st' : List (List (String × JVal))) (n L : Nat)
    (hw' : wfX st' n)
    (hsub : ∀ x k y, y < L → edgeAt st' x k y → edgeAt st x k y)
    (b : Nat) (hb : b < L) : ∀ x, Reaches st' x b → Reaches st x b := by
  intro x h
  have aux : ∀ {a y : Nat}, Reaches st' a y → y = b → Reaches st a b := by
    intro a y hr
    induction hr with
    | refl =>
      intro hy
      subst hy
      exact .refl _
    | @head a c y2 k e hr2 ih =>
      intro hy
      have hcn : c ≠ n := edge_ne_n st' n hw' e
      have hcb : c ≤ y2 := reach_le_x st' n hw' hr2 hcn
      have hcb2 : c ≤ b := hy ▸ hcb
      exact .head k (hsub _ _ _ (by omega) e) (ih hy)
  exact aux h rfl

theorem merge_reach_back (st : List (List (String × JVal))) (dest : Nat)
    (ps : List (String × PVal)) (n : Nat) (hw : wfX st n)
    (hn : n < st.length) (hdest : dest < st.length) (b : Nat)
    (hb : b < st.length) (x : Nat)
    (h : Reaches (mergeFields st dest ps) x b) : Reaches st x b :=
  reach_back st (mergeFields st dest ps) n st.length
    (merge_wfX st dest ps n hw hn hdest)
    (fun x' k y hy e => merge_edge_mono st dest ps x' k y hy e) b hb x h

theorem merge_frame (st : List (List (String × JVal))) (dest : Nat)
    (ps : List (String × PVal)) (n b : Nat) :
    wfX st n → n < st.length → dest < st.length → b < st.length →
    ¬ Reaches st dest b → getObj (mergeFields st dest ps) b = getObj st b := by
  induction st, dest, ps using mergeFields.induct with
  | case1 st dest =>
    intro _ _ _ _ _
    rw [mergeFields_nil]
  | case2 st dest k s rest ih1 =>
    intro hw hn hdest hb hnr
    rw [mergeFields_pstr]
    have hbd : b ≠ dest := by
      intro he
      subst he
      exact hnr (Reaches.refl _)
    have e1 : getObj (setFieldAt st dest k (.vstr s)) b = getObj st b :=
      getObj_setFieldAt_ne st dest k _ b hbd
    have hw1 := wfX_setFieldAt_str st n dest k s hw
    have hnr1 : ¬ Reaches (setFieldAt st dest k (.vstr s)) dest b := by
      intro hr
      refine hnr (reach_back st _ n st.length hw1 ?_ b hb dest hr)
      intro x k' y _ he
      rcases edge_setFieldAt st dest k _ x k' y he with ⟨-, -, hv⟩ | he'
      · cases hv
      · exact he'
    rw [ih1 hw1 (by rw [length_setFieldAt]; exact hn)
      (by rw [length_setFieldAt]; exact hdest)
      (by rw [length_setFieldAt]; exact hb) hnr1]
    exact e1
  | case3 st dest k fs rest a hl ih2 ih1 =>
    intro hw hn hdest hb hnr
    rw [mergeFields_pobj_ref st dest k fs rest a hl]
    have ha : a < st.length := by
      by_cases hdn : dest = n
      · exact wfX_edge_n st n hw (hdn ▸ hl)
      · exact (wfX_edge st n hw hl hdn).2
    have hnra : ¬ Reaches st a b := fun h => hnr (.head k hl h)
    have e2 := ih2 hw hn ha hb hnra
    have hw1 := merge_wfX st a fs n hw hn ha
    have hlen := merge_length st a fs
    have hnr1 : ¬ Reaches (mergeFields st a fs) dest b := fun hr =>
      hnr (merge_reach_back st a fs n hw hn ha b hb dest hr)
    rw [ih1 hw1 (by omega) (by omega) (by omega) hnr1]
    exact e2
  | case4 st dest k fs rest hl ih2 ih1 =>
    intro hw hn hdest hb hnr
    rw [mergeFields_pobj_new st dest k fs rest (fun x hx => hl x hx)]
    have hbd : b ≠ dest := by
      intro he
      subst he
      exact hnr (Reaches.refl _)
    have hlen0 : (st ++ [[]]).length = st.length + 1 := by simp
    have hw0 := wfX_append_empty st n hw
    have hnra : ¬ Reaches (st ++ [[]]) st.length b := by
      intro hr
      have := reach_empty (st ++ [[]]) st.length (getObj_append_self st []) hr
      omega
    have e2 := ih2 hw0 (by omega) (by omega) (by omega) hnra
    have e0 : getObj (st ++ [[]]) b = getObj st b := getObj_append_lt st [] b hb
    have hw2 := merge_wfX (st ++ [[]]) st.length fs n hw0 (by omega) (by omega)
    have hlen2 := merge_length (st ++ [[]]) st.length fs
    have hw3 := wfX_setFieldAt_ref (mergeFields (st ++ [[]]) st.length fs) n
      dest k st.length hw2 (by omega) hdest (by omega) (by omega)
    have e3 : getObj (setFieldAt (mergeFields (st ++ [[]]) st.length fs) dest k
        (.vref st.length)) b = getObj (mergeFields (st ++ [[]]) st.length fs) b :=
      getObj_setFieldAt_ne _ dest k _ b hbd
    have hnr3 : ¬ Reaches (setFieldAt (mergeFields (st ++ [[]]) st.length fs)
        dest k (.vref st.length)) dest b := by
      intro hr
      refine hnr (reach_back st _ n st.length hw3 ?_ b hb dest hr)
      intro x k' y hy he
      rcases edge_setFieldAt _ dest k _ x k' y he with ⟨-, -, hv⟩ | he'
      · cases hv
        omega
      · exact edge_append_back st x k' y
          (merge_edge_mono (st ++ [[]]) st.length fs x k' y (by omega) he')
    rw [ih1 hw3 (by rw [length_setFieldAt]; omega)
      (by rw [length_setFieldAt]; omega)
      (by rw [length_setFieldAt]; omega) hnr3]
    rw [e3, e2, e0]

theorem merge_dest_keys (st : List (List (String × JVal))) (dest : Nat)
    (ps : List (String × PVal)) (n : Nat) (k' : String) :
    wfX st n → n < st.length → dest < st.length → k' ∉ ps.map Prod.fst →
    lookupA (getObj (mergeFields st dest ps) dest) k' =
      lookupA (getObj st dest) k' := by
  induction st, dest, ps using mergeFields.induct with
  | case1 st dest =>
    intro _ _ _ _
    rw [mergeFields_nil]
  | case2 st dest k s rest ih1 =>
    intro hw hn hdest hk
    rw [mergeFields_pstr]
    have hkk : k' ≠ k := fun he => hk (by simp [he])
    rw [ih1 (wfX_setFieldAt_str st n dest k s hw)
      (by rw [length_setFieldAt]; exact hn)
      (by rw [length_setFieldAt]; exact hdest)
      (fun hm => hk (by simp at hm ⊢; exact Or.inr hm))]
    rw [getObj_setFieldAt_self st dest k _ hdest, lookupA_objSet_ne _ _ _ _ hkk]
  | case3 st dest k fs rest a hl ih2 ih1 =>
    intro hw hn hdest hk
    rw [mergeFields_pobj_ref st dest k fs rest a hl]
    have haan : a ≠ n := edge_ne_n st n hw hl
    have ha : a < st.length := by
      by_cases hdn : dest = n
      · exact wfX_edge_n st n hw (hdn ▸ hl)
      · exact (wfX_edge st n hw hl hdn).2
    have hnra : ¬ Reaches st a dest := by
      intro hr
      by_cases hdn : dest = n
      · exact haan (hdn ▸ reach_to_unref st n hw (hdn ▸ hr))
      · have h1 := reach_le_x st n hw hr haan
        have h2 := (wfX_edge st n hw hl hdn).1
        omega
    have e1 := merge_frame st a fs n dest hw hn ha hdest hnra
    have hw1 := merge_wfX st a fs n hw hn ha
    have hlen := merge_length st a fs
    rw [ih1 hw1 (by omega) (by omega)
      (fun hm => hk (by simp at hm ⊢; exact Or.inr hm)), e1]
  | case4 st dest k fs rest hl ih2 ih1 =>
    intro hw hn hdest hk
    rw [mergeFields_pobj_new st dest k fs rest (fun x hx => hl x hx)]
    have hkk : k' ≠ k := fun he => hk (by simp [he])
    have hlen0 : (st ++ [[]]).length = st.length + 1 := by simp
    have hw0 := wfX_append_empty st n hw
    have hnra : ¬ Reaches (st ++ [[]]) st.length dest := by
      intro hr
      have := reach_empty (st ++ [[]]) st.length (getObj_append_self st []) hr
      omega
    have e2 := merge_frame (st ++ [[]]) st.length fs n dest hw0 (by omega)
      (by omega) (by omega) hnra
    have e0 : getObj (st ++ [[]]) dest = getObj st dest :=
      getObj_append_lt st [] dest hdest
    have hw2 := merge_wfX (st ++ [[]]) st.length fs n hw0 (by omega) (by omega)
    have hlen2 := merge_length (st ++ [[]]) st.length fs
    have hw3 := wfX_setFieldAt_ref (mergeFields (st ++ [[]]) st.length fs) n
      dest k st.length hw2 (by omega) hdest (by omega) (by omega)
    rw [ih1 hw3 (by rw [length_setFieldAt]; omega)
      (by rw [length_setFieldAt]; omega)
      (fun hm => hk (by simp at hm ⊢; exact Or.inr hm))]
    rw [getObj_setFieldAt_self _ dest k _ (by omega),
      lookupA_objSet_ne _ _ _ _ hkk, e2, e0]

theorem wf_to_wfX_self (st : List (List (String × JVal))) (hw : wfStore st) :
    wfX st st.length := by
  refine ⟨?_, ?_, ?_⟩
  · intro x hx _ p hp
    exact hw x hx p hp
  · intro p hp
    rw [getObj_oob st st.length (Nat.le_refl _)] at hp
    cases hp
  · intro x k he
    have hm := lookupA_mem _ _ _ he
    have hx := edge_src_lt st x k st.length he
    have hv := hw x hx (k, .vref st.length) hm
    simp only [valFwd, Bool.and_eq_true, decide_eq_true_eq] at hv
    omega

theorem wf_edge (st : List (List (String × JVal))) (hw : wfStore st)
    {x : Nat} {k : String} {y : Nat} (e : edgeAt st x k y) :
    x < y ∧ y < st.length :=
  wfX_edge st st.length (wf_to_wfX_self st hw) e
    (by have := edge_src_lt st x k y e; omega)

theorem wf_reach_le (st : List (List (String × JVal))) (hw : wfStore st)
    {x y : Nat} (h : Reaches st x y) (hx : x < st.length) : x ≤ y :=
  reach_le_x st st.length (wf_to_wfX_self st hw) h (by omega)

theorem wf_reach_lt_len (st : List (List (String × JVal))) (hw : wfStore st)
    {a x : Nat} (h : Reaches st a x) (ha : a < st.length) : x < st.length :=
  reach_lt_len st st.length (wf_to_wfX_self st hw) h ha

theorem ur_edge (st : List (List (String × JVal))) (hur : uniqueRefs st)
    {x1 : Nat} {k1 : String} {x2 : Nat} {k2 : String} {y : Nat}
    (h1 : edgeAt st x1 k1 y) (h2 : edgeAt st x2 k2 y) : x1 = x2 ∧ k1 = k2 := by
  have hm1 := lookupA_mem _ _ _ h1
  have hm2 := lookupA_mem _ _ _ h2
  have hx1 := edge_src_lt st x1 k1 y h1
  have hx2 := edge_src_lt st x2 k2 y h2
  exact hur x1 hx1 x2 hx2 (k1, .vref y) hm1 (k2, .vref y) hm2 rfl rfl

theorem reaches_merge_point (st : List (List (String × JVal)))
    (hw : wfStore st) (hur : uniqueRefs st) :
    ∀ x a b, Reaches st a x → Reaches st b x →
      Reaches st a b ∨ Reaches st b a := by
  intro x
  induction x using Nat.strong_induction_on with
  | _ x ih =>
    intro a b ha hb
    rcases reach_last st ha with rfl | ⟨y1, k1, hy1, e1⟩
    · exact Or.inr hb
    rcases reach_last st hb with rfl | ⟨y2, k2, hy2, e2⟩
    · exact Or.inl ha
    have heq := (ur_edge st hur e1 e2).1
    have hylt : y1 < x := (wf_edge st hw e1).1
    rw [← heq] at hy2
    exact ih y1 hylt a b hy1 hy2

theorem sibling_disjoint (st : List (List (String × JVal))) (hw : wfStore st)
    (hur : uniqueRefs st) (cb aA aB : Nat) (A B : String)
    (hA : edgeAt st cb A aA) (hB : edgeAt st cb B aB) (hAB : A ≠ B) (x : Nat)
    (h1 : Reaches st aA x) (h2 : Reaches st aB x) : False := by
  rcases reaches_merge_point st hw hur x aA aB h1 h2 with h | h
  · rcases reach_last st h with rfl | ⟨y, k, hy, e⟩
    · exact hAB (ur_edge st hur hA hB).2
    · have hyc := (ur_edge st hur e hB).1
      rw [hyc] at hy
      have h1' : aA ≤ cb := wf_reach_le st hw hy (wf_edge st hw hA).2
      have h2' : cb < aA := (wf_edge st hw hA).1
      omega
  · rcases reach_last st h with rfl | ⟨y, k, hy, e⟩
    · exact hAB (ur_edge st hur hA hB).2
    · have hyc := (ur_edge st hur e hA).1
      rw [hyc] at hy
      have h1' : aB ≤ cb := wf_reach_le st hw hy (wf_edge st hw hB).2
      have h2' : cb < aB := (wf_edge st hw hB).1
      omega

theorem edge_append_cases (st : List (List (String × JVal)))
    (o : List (String × JVal)) (x : Nat) (k : String) (y : Nat)
    (h : edgeAt (st ++ [o]) x k y) :
    (x < st.length ∧ edgeAt st x k y) ∨
      (x = st.length ∧ lookupA o k = some (.vref y)) := by
  by_cases hx : x < st.length
  · rw [edgeAt, getObj_append_lt st o x hx] at h
    exact Or.inl ⟨hx, h⟩
  · by_cases hx2 : x = st.length
    · subst hx2
      rw [edgeAt, getObj_append_self] at h
      exact Or.inr ⟨rfl, h⟩
    · rw [edgeAt, getObj_oob (st ++ [o]) x (by simp; omega)] at h
      cases h

theorem wf_root_copy (st : List (List (String × JVal))) (r : Nat)
    (hw : wfStore st) (hr : r < st.length) :
    wfX (st ++ [getObj st r]) st.length := by
  refine ⟨?_, ?_, ?_⟩
  · intro x hx hxn p hp
    simp only [List.length_append, List.length_cons, List.length_nil] at hx
    have hxl : x < st.length := by omega
    rw [getObj_append_lt st _ x hxl] at hp
    exact valFwd_mono _ _ _ _ (hw x hxl p hp) (by simp)
  · intro p hp
    rw [getObj_append_self] at hp
    have hv := hw r hr p hp
    cases hp2 : p.2 with
    | vstr s => rfl
    | vref j =>
      rw [hp2] at hv
      simp only [valFwd, Bool.and_eq_true, decide_eq_true_eq] at hv
      simp only [valBounded, decide_eq_true_eq, List.length_append,
        List.length_cons, List.length_nil]
      omega
  · intro x k he
    rcases edge_append_cases st _ x k st.length he with ⟨hx, he'⟩ | ⟨hx, he'⟩
    · have := (wf_edge st hw he').2
      omega
    · have hm := lookupA_mem _ _ _ he'
      have hv := hw r hr _ hm
      simp only [valFwd, Bool.and_eq_true, decide_eq_true_eq] at hv
      omega

theorem reach_append_of (st : List (List (String × JVal)))
    (o : List (String × JVal)) {a b : Nat}
    (hbound : ∀ x k y, edgeAt st x k y → y < st.length) (ha : a < st.length)
    (h : Reaches (st ++ [o]) a b) : Reaches st a b := by
  have aux : ∀ {a2 b2 : Nat}, Reaches (st ++ [o]) a2 b2 → a2 < st.length →
      Reaches st a2 b2 := by
    intro a2 b2 hr
    induction hr with
    | refl => exact fun _ => .refl _
    | @head a3 c b3 k e hr2 ih =>
      intro ha3
      rcases edge_append_cases st o a3 k c e with ⟨-, he'⟩ | ⟨hx, -⟩
      · exact .head k he' (ih (hbound _ _ _ he'))
      · omega
  exact aux h ha

theorem reach_append_to (st : List (List (String × JVal)))
    (o : List (String × JVal)) {a b : Nat} (h : Reaches st a b) :
    Reaches (st ++ [o]) a b := by
  induction h with
  | refl => exact .refl _
  | @head a c b k e hr ih =>
    have hx := edge_src_lt st a k c e
    exact .head k (by rw [edgeAt, getObj_append_lt st o a hx]; exact e) ih

/-- C1: merging a patch that only touches one child preserves every
untouched sibling. For any snapshot heap laid out as a tree (forward
references, unique references), with sibling child branches A and B under
the root's child_branches map, merging a patch whose only changed child is
A yields a result whose child_branches field still references the same map
object, in which B still references its prior object, every object of B's
subtree being bit-for-bit unchanged (structurally identical and shared);
and, for an arbitrary patch, every key of the current root absent from the
patch maps to an unchanged value in the returned root. -/
theorem merge_preserves_untouched_siblings
    (st : List (List (String × JVal))) (r cb aA aB : Nat) (A B : String)
    (pA : List (String × PVal))
    (hwf : wfStore st) (hur : uniqueRefs st) (hr : r < st.length)
    (hcb : edgeAt st r "child_branches" cb)
    (hA : edgeAt st cb A aA) (hB : edgeAt st cb B aB) (hAB : A ≠ B) :
    edgeAt (updateResultTree st r [("child_branches", .pobj [(A, .pobj pA)])]).1
      (updateResultTree st r [("child_branches", .pobj [(A, .pobj pA)])]).2
      "child_branches" cb ∧
    edgeAt (updateResultTree st r [("child_branches", .pobj [(A, .pobj pA)])]).1
      cb B aB ∧
    (∀ x, Reaches st aB x →
      getObj (updateResultTree st r [("child_branches", .pobj [(A, .pobj pA)])]).1
          x =
        getObj st x) ∧
    (∀ (ps : List (String × PVal)) (k : String), k ∉ ps.map Prod.fst →
      lookupA
          (getObj (updateResultTree st r ps).1 (updateResultTree st r ps).2) k =
        lookupA (getObj st r) k) := by
  have hcbl : cb < st.length := (wf_edge st hwf hcb).2
  have haAl : aA < st.length := (wf_edge st hwf hA).2
  have haBl : aB < st.length := (wf_edge st hwf hB).2
  have hcbaA : cb < aA := (wf_edge st hwf hA).1
  have hwX : wfX (st ++ [getObj st r]) st.length := wf_root_copy st r hwf hr
  have hlen0 : (st ++ [getObj st r]).length = st.length + 1 := by simp
  have hcb0 : edgeAt (st ++ [getObj st r]) st.length "child_branches" cb := by
    rw [edgeAt, getObj_append_self]
    exact hcb
  have hA0 : edgeAt (st ++ [getObj st r]) cb A aA := by
    rw [edgeAt, getObj_append_lt st _ cb hcbl]
    exact hA
  have e1 : (updateResultTree st r
      [("child_branches", PVal.pobj [(A, PVal.pobj pA)])]).1 =
      mergeFields (st ++ [getObj st r]) aA pA := by
    show mergeFields (st ++ [getObj st r]) st.length
      [("child_branches", PVal.pobj [(A, PVal.pobj pA)])] = _
    rw [mergeFields_pobj_ref _ st.length "child_branches" [(A, PVal.pobj pA)]
      [] cb hcb0]
    rw [mergeFields_pobj_ref _ cb A pA [] aA hA0]
    rw [mergeFields_nil, mergeFields_nil]
  have hbound : ∀ x k y, edgeAt st x k y → y < st.length :=
    fun x k y e => (wf_edge st hwf e).2
  refine ⟨?_, ?_, ?_, ?_⟩
  · show edgeAt _ st.length "child_branches" cb
    rw [e1, edgeAt, merge_frame (st ++ [getObj st r]) aA pA st.length st.length
      hwX (by omega) (by omega) (by omega) ?hnr]
    case hnr =>
      intro h
      have := reach_to_unref _ st.length hwX h
      omega
    rw [getObj_append_self]
    exact hcb
  · rw [e1, edgeAt, merge_frame (st ++ [getObj st r]) aA pA st.length cb
      hwX (by omega) (by omega) (by omega) ?hnrcb]
    case hnrcb =>
      intro h
      have h1 := reach_le_x _ st.length hwX h (by omega)
      omega
    rw [getObj_append_lt st _ cb hcbl]
    exact hB
  · intro x hx
    have hxl : x < st.length := wf_reach_lt_len st hwf hx haBl
    rw [e1, merge_frame (st ++ [getObj st r]) aA pA st.length x
      hwX (by omega) (by omega) (by omega) ?hnrx]
    case hnrx =>
      intro h
      exact sibling_disjoint st hwf hur cb aA aB A B hA hB hAB x
        (reach_append_of st (getObj st r) hbound haAl h) hx
    exact getObj_append_lt st _ x hxl
  · intro ps k hk
    show lookupA (getObj (mergeFields (st ++ [getObj st r]) st.length ps)
      st.length) k = _
    rw [merge_dest_keys (st ++ [getObj st r]) st.length ps st.length k
      hwX (by omega) (by omega) hk]
    rw [getObj_append_self]

/-- C1 witness: on the concrete two-sibling heap, merging a patch that only
changes suite_a keeps the child_branches map and the suite_b entry shared,
leaves the suite_b object untouched, and keeps the nodeid of the root. -/
theorem merge_preserves_untouched_siblings_witness :
    edgeAt (updateResultTree exStoreC1 0
        [("child_branches", .pobj [("suite_a", .pobj [("status", .pstr "running")])])]).1
      (updateResultTree exStoreC1 0
        [("child_branches", .pobj [("suite_a", .pobj [("status", .pstr "running")])])]).2
      "child_branches" 1 ∧
    edgeAt (updateResultTree exStoreC1 0
        [("child_branches", .pobj [("suite_a", .pobj [("status", .pstr "running")])])]).1
      1 "suite_b" 3 ∧
    getObj (updateResultTree exStoreC1 0
        [("child_branches", .pobj [("suite_a", .pobj [("status", .pstr "running")])])]).1
      3 = getObj exStoreC1 3 ∧
    lookupA (getObj (updateResultTree exStoreC1 0
        [("child_branches", .pobj [("suite_a", .pobj [("status", .pstr "running")])])]).1
      (updateResultTree exStoreC1 0
        [("child_branches", .pobj [("suite_a", .pobj [("status", .pstr "running")])])]).2)
      "nodeid" = some (.vstr "") := by
  have h := merge_preserves_untouched_siblings exStoreC1 0 1 2 3 "suite_a"
    "suite_b" [("status", PVal.pstr "running")] (by decide) (by decide)
    (by decide) (by decide) (by decide) (by decide) (by decide)
  refine ⟨h.1, h.2.1, h.2.2.1 3 (Reaches.refl 3), ?_⟩
  rw [h.2.2.2 [("child_branches",
    PVal.pobj [("suite_a", PVal.pobj [("status", PVal.pstr "running")])])]
    "nodeid" (by decide)]
  decide

/-- C2 evaluation at the failing input: updateResultTree returns a fresh
root object (address 3, distinct from the old root at 0), but merging the
patch mutates in place the suite_a object at address 2, which the previous
snapshot still reaches through addresses 0 and 1: its status field changes
from pending to running under the old root, so a reader holding the
previous snapshot observes the change. -/
theorem merge_mutates_shared_node :
    edgeAt exStore 0 "child_branches" 1 ∧
    edgeAt exStore 1 "suite_a" 2 ∧
    lookupA (getObj exStore 2) "status" = some (.vstr "pending") ∧
    (updateResultTree exStore 0 exPatch).2 = 3 ∧
    edgeAt (updateResultTree exStore 0 exPatch).1 0 "child_branches" 1 ∧
    edgeAt (updateResultTree exStore 0 exPatch).1 1 "suite_a" 2 ∧
    lookupA (getObj (updateResultTree exStore 0 exPatch).1 2) "status" =
      some (.vstr "running") := by
  have e1 : (updateResultTree exStore 0 exPatch).1 =
      [[("nodeid", .vstr ""), ("status", .vstr "passed"),
        ("child_branches", .vref 1)],
       [("suite_a", .vref 2)],
       [("nodeid", .vstr "suite_a.py"), ("status", .vstr "running")],
       [("nodeid", .vstr ""), ("status", .vstr "passed"),
        ("child_branches", .vref 1)]] := by
    show mergeFields (exStore ++ [getObj exStore 0]) 3 exPatch = _
    rw [show exPatch = [("child_branches",
      PVal.pobj [("suite_a", PVal.pobj [("status", PVal.pstr "running")])])]
      from rfl]
    rw [mergeFields_pobj_ref _ 3 _ _ _ 1 (by decide), mergeFields_nil]
    rw [mergeFields_pobj_ref _ 1 _ _ _ 2 (by decide), mergeFields_nil]
    rw [mergeFields_pstr, mergeFields_nil]
    decide
  refine ⟨rfl, rfl, rfl, rfl, ?_, ?_, ?_⟩ <;> rw [e1] <;> decide

/-- C3: merge never deletes. For every current heap, every patch and every
node object, every key present on the object is still present on the same
object in the heap returned by updateResultTree, and every key of the old
root is still present on the returned new root; since the merge keeps every
existing reference in place, each node object keeps its address and hence
its position in the tree. -/
theorem merge_never_deletes (st : List (List (String × JVal))) (r : Nat)
    (ps : List (String × PVal)) (a : Nat) (k k' : String)
    (ha : hasKeyB st a k = true) (hroot : hasKeyB st r k' = true) :
    hasKeyB (updateResultTree st r ps).1 a k = true ∧
    hasKeyB (updateResultTree st r ps).1 (updateResultTree st r ps).2 k' =
      true := by
  constructor
  · exact merge_hasKey _ st.length ps a k (hasKeyB_append st _ a k ha)
  · refine merge_hasKey _ st.length ps st.length k' ?_
    rw [hasKeyB, getObj_append_self]
    exact hroot

/-- C3 witness: on the concrete heap, the status key of the suite_a object
and the nodeid key of the root survive the merge of the concrete patch. -/
theorem merge_never_deletes_witness :
    hasKeyB (updateResultTree exStore 0 exPatch).1 2 "status" = true ∧
    hasKeyB (updateResultTree exStore 0 exPatch).1
      (updateResultTree exStore 0 exPatch).2 "nodeid" = true :=
  merge_never_deletes exStore 0 exPatch 2 "status" "nodeid" (by decide)
    (by decide)

theorem mergeFlat_frame (st : List (List (String × JVal))) (dest : Nat)
    (lp : List (String × String)) (b : Nat) (hb : b ≠ dest) :
    getObj (mergeFields st dest (encLeafFields lp)) b = getObj st b := by
  induction lp generalizing st with
  | nil => rw [show encLeafFields [] = [] from rfl, mergeFields_nil]
  | cons p rest ih =>
    rw [show encLeafFields (p :: rest) = (p.1, .pstr p.2) :: encLeafFields rest
      from rfl]
    rw [mergeFields_pstr, ih (setFieldAt st dest p.1 (.vstr p.2))]
    exact getObj_setFieldAt_ne st dest p.1 _ b hb

theorem mergeFlat_get (st : List (List (String × JVal))) (dest : Nat)
    (lp : List (String × String)) (f : String) (hdest : dest < st.length)
    (hnd : (lp.map Prod.fst).Nodup) :
    lookupA (getObj (mergeFields st dest (encLeafFields lp)) dest) f =
      match lookupA lp f with
      | some s => some (JVal.vstr s)
      | none => lookupA (getObj st dest) f := by
  induction lp generalizing st with
  | nil =>
    rw [show encLeafFields [] = [] from rfl, mergeFields_nil]
    rfl
  | cons p rest ih =>
    obtain ⟨k, s⟩ := p
    simp only [List.map_cons, List.nodup_cons] at hnd
    rw [show encLeafFields ((k, s) :: rest) =
      (k, .pstr s) :: encLeafFields rest from rfl]
    rw [mergeFields_pstr]
    rw [ih (setFieldAt st dest k (.vstr s))
      (by rw [length_setFieldAt]; exact hdest) hnd.2]
    rw [getObj_setFieldAt_self st dest k (.vstr s) hdest]
    by_cases hf : f = k
    · subst hf
      rw [lookupA_eq_none rest f hnd.1, lookupA_objSet_self]
      simp [lookupA]
    · rw [lookupA_objSet_ne _ _ _ _ hf]
      simp [lookupA, Ne.symm hf]

/-- C4 counterexample: on the concrete heap whose leaf test_one failed with
a report, the patch child_leaves.test_one.status = passed does not replace
the leaf wholesale: the merged leaf keeps its identity (address 2), takes
status passed from the patch, and retains the report field AssertionError
that the patch does not carry, contradicting that no field of the current
leaf is retained. -/
theorem leaf_patch_retains_field :
    edgeAt exStoreLeaf 0 "child_leaves" 1 ∧
    edgeAt exStoreLeaf 1 "test_one" 2 ∧
    lookupA (getObj exStoreLeaf 2) "report" = some (.vstr "AssertionError") ∧
    edgeAt (updateResultTree exStoreLeaf 0 exPatchLeaf).1 1 "test_one" 2 ∧
    lookupA (getObj (updateResultTree exStoreLeaf 0 exPatchLeaf).1 2)
      "status" = some (.vstr "passed") ∧
    lookupA (getObj (updateResultTree exStoreLeaf 0 exPatchLeaf).1 2)
      "report" = some (.vstr "AssertionError") := by
  have e1 : (updateResultTree exStoreLeaf 0 exPatchLeaf).1 =
      [[("nodeid", .vstr ""), ("child_leaves", .vref 1)],
       [("test_one", .vref 2)],
       [("nodeid", .vstr "test_one"), ("status", .vstr "passed"),
        ("report", .vstr "AssertionError")],
       [("nodeid", .vstr ""), ("child_leaves", .vref 1)]] := by
    show mergeFields (exStoreLeaf ++ [getObj exStoreLeaf 0]) 3 exPatchLeaf = _
    rw [show exPatchLeaf = [("child_leaves",
      PVal.pobj [("test_one", PVal.pobj [("status", PVal.pstr "passed")])])]
      from rfl]
    rw [mergeFields_pobj_ref _ 3 _ _ _ 1 (by decide), mergeFields_nil]
    rw [mergeFields_pobj_ref _ 1 _ _ _ 2 (by decide), mergeFields_nil]
    rw [mergeFields_pstr, mergeFields_nil]
    decide
  refine ⟨rfl, rfl, rfl, ?_, ?_, ?_⟩ <;> rw [e1] <;> decide

/-- C4 (amended): child_leaves entries are merged field-wise, not replaced
wholesale. For any tree-shaped snapshot heap with a leaves map under the
root and a current leaf under key L in it, merging a patch carrying a flat
leaf object for L keeps the leaves map shared, keeps the entry for L
pointing at the same leaf object, and on that object every field named by
the patch takes the patch value while every other field retains its
current value; entries of the leaves map under other keys, and the leaf
objects they reference, are unchanged. -/
theorem merge_child_leaves_fieldwise
    (st : List (List (String × JVal))) (r m l : Nat) (L : String)
    (lp : List (String × String))
    (hwf : wfStore st) (hur : uniqueRefs st) (hr : r < st.length)
    (hm : edgeAt st r "child_leaves" m) (hL : edgeAt st m L l)
    (hnd : (lp.map Prod.fst).Nodup) :
    edgeAt (updateResultTree st r
        [("child_leaves", .pobj [(L, .pobj (encLeafFields lp))])]).1
      (updateResultTree st r
        [("child_leaves", .pobj [(L, .pobj (encLeafFields lp))])]).2
      "child_leaves" m ∧
    edgeAt (updateResultTree st r
        [("child_leaves", .pobj [(L, .pobj (encLeafFields lp))])]).1 m L l ∧
    (∀ f, lookupA (getObj (updateResultTree st r
        [("child_leaves", .pobj [(L, .pobj (encLeafFields lp))])]).1 l) f =
      match lookupA lp f with
      | some s => some (JVal.vstr s)
      | none => lookupA (getObj st l) f) ∧
    (∀ K, lookupA (getObj (updateResultTree st r
        [("child_leaves", .pobj [(L, .pobj (encLeafFields lp))])]).1 m) K =
      lookupA (getObj st m) K) ∧
    (∀ K l2, K ≠ L → edgeAt st m K l2 →
      getObj (updateResultTree st r
        [("child_leaves", .pobj [(L, .pobj (encLeafFields lp))])]).1 l2 =
      getObj st l2) := by
  have hml : m < st.length := (wf_edge st hwf hm).2
  have hll : l < st.length := (wf_edge st hwf hL).2
  have hmlt : m < l := (wf_edge st hwf hL).1
  have hm0 : edgeAt (st ++ [getObj st r]) st.length "child_leaves" m := by
    rw [edgeAt, getObj_append_self]
    exact hm
  have hL0 : edgeAt (st ++ [getObj st r]) m L l := by
    rw [edgeAt, getObj_append_lt st _ m hml]
    exact hL
  have e1 : (updateResultTree st r
      [("child_leaves", PVal.pobj [(L, PVal.pobj (encLeafFields lp))])]).1 =
      mergeFields (st ++ [getObj st r]) l (encLeafFields lp) := by
    show mergeFields (st ++ [getObj st r]) st.length
      [("child_leaves", PVal.pobj [(L, PVal.pobj (encLeafFields lp))])] = _
    rw [mergeFields_pobj_ref _ st.length "child_leaves"
      [(L, PVal.pobj (encLeafFields lp))] [] m hm0]
    rw [mergeFields_pobj_ref _ m L (encLeafFields lp) [] l hL0]
    rw [mergeFields_nil, mergeFields_nil]
  refine ⟨?_, ?_, ?_, ?_, ?_⟩
  · show edgeAt _ st.length "child_leaves" m
    rw [e1, edgeAt, mergeFlat_frame _ l lp st.length (by omega),
      getObj_append_self]
    exact hm
  · rw [e1, edgeAt, mergeFlat_frame _ l lp m (by omega),
      getObj_append_lt st _ m hml]
    exact hL
  · intro f
    rw [e1, mergeFlat_get _ l lp f
      (by simp only [List.length_append, List.length_cons, List.length_nil]
          omega) hnd]
    rw [getObj_append_lt st _ l hll]
  · intro K
    rw [e1, mergeFlat_frame _ l lp m (by omega), getObj_append_lt st _ m hml]
  · intro K l2 hKL hK
    have hl2 : l2 < st.length := (wf_edge st hwf hK).2
    have hne : l2 ≠ l := by
      intro he
      exact hKL (ur_edge st hur (he ▸ hK) hL).2
    rw [e1, mergeFlat_frame _ l lp l2 hne, getObj_append_lt st _ l2 hl2]

/-- C4 witness: on the concrete leaf heap, applying the theorem at the
patch setting test_one's status to passed shows the leaves map and the
leaf entry stay shared, the status field takes the patch value, and the
report field keeps its current value. -/
theorem merge_child_leaves_fieldwise_witness :
    edgeAt (updateResultTree exStoreLeaf 0 [("child_leaves",
        .pobj [("test_one", .pobj (encLeafFields [("status", "passed")]))])]).1
      (updateResultTree exStoreLeaf 0 [("child_leaves",
        .pobj [("test_one", .pobj (encLeafFields [("status", "passed")]))])]).2
      "child_leaves" 1 ∧
    edgeAt (updateResultTree exStoreLeaf 0 [("child_leaves",
        .pobj [("test_one", .pobj (encLeafFields [("status", "passed")]))])]).1
      1 "test_one" 2 ∧
    lookupA (getObj (updateResultTree exStoreLeaf 0 [("child_leaves",
        .pobj [("test_one", .pobj (encLeafFields [("status", "passed")]))])]).1
      2) "status" = some (.vstr "passed") ∧
    lookupA (getObj (updateResultTree exStoreLeaf 0 [("child_leaves",
        .pobj [("test_one", .pobj (encLeafFields [("status", "passed")]))])]).1
      2) "report" = some (.vstr "AssertionError") := by
  have h := merge_child_leaves_fieldwise exStoreLeaf 0 1 2 "test_one"
    [("status", "passed")] (by decide) (by decide) (by decide) (by decide)
    (by decide) (by decide)
  refine ⟨h.1, h.2.1, ?_, ?_⟩
  · rw [h.2.2.1 "status"]
    decide
  · rw [h.2.2.1 "report"]
    decide
